import Mathlib

/-!
Verification development for a DEFLATE/zlib codec library.

The definitions below are a shallow embedding of the library's Rust sources:
machine integers become `Nat` (with explicit `% 2 ^ w` where the source
performs fixed-width arithmetic that could wrap), byte buffers become
`List Nat`, fallible operations return `Option` or `Except`, and `while`
loops become structural recursion on an explicit fuel argument chosen at
the call site to dominate the loop's iteration count.  Fuel exhaustion is
reported as `none` (distinct from the source's error values).
-/

set_option maxRecDepth 100000

namespace Compress

/-- Stable insertion of `x` into `l`: `x` is placed before the first element
`y` with `cmp x y = lt`, hence after all elements it compares equal to.
Used to model Rust's stable `sort_by`. -/
def insCmp {α : Type} (cmp : α → α → Ordering) (x : α) : List α → List α
  | [] => [x]
  | y :: ys => if cmp x y = Ordering.lt then x :: y :: ys else y :: insCmp cmp x ys

/-- Stable sort by a three-way comparator, modelling Rust's `sort_by`
(for the total preorders used by the library a stable sort is unique,
so any stable algorithm gives the slice `sort_by` result). -/
def sortByCmp {α : Type} (cmp : α → α → Ordering) (l : List α) : List α :=
  l.foldl (fun acc x => insCmp cmp x acc) []

/-- `u32::trailing_zeros` restricted to nonzero inputs (fuel 32 covers u32). -/
def trailingZerosAux : Nat → Nat → Nat
  | 0, _ => 0
  | fuel + 1, n => if n % 2 = 1 ∨ n = 0 then 0 else trailingZerosAux fuel (n / 2) + 1

def trailingZeros (n : Nat) : Nat := trailingZerosAux 32 n

/-- `(1u32 << n) - 1`, the low-`n`-bits mask (`BitSize::mask`; `n ≤ 24` in use,
so the `u32` wrapping shift never wraps). -/
def mask (n : Nat) : Nat := (1 <<< n) - 1

/-- Decode error values (`DecodeError` in `lib.rs`). -/
inductive DecodeError where
  | InvalidInput
  | InvalidData
  | OutOfMemory
  | UnsupportedFormat
  | UnexpectedEof
deriving DecidableEq, Repr

/-- Encode error values (`EncodeError` in `lib.rs`). -/
inductive EncodeError where
  | InvalidInput
  | InvalidData
  | OutOfMemory
  | EntropyError
  | InternalInconsistency
deriving DecidableEq, Repr

instance {e a : Type} [DecidableEq e] [DecidableEq a] : DecidableEq (Except e a) := by
  intro x y
  cases x <;> cases y
  case error.error p q =>
    exact match decEq p q with
      | isTrue h => isTrue (by rw [h])
      | isFalse h => isFalse (by intro hh; cases hh; exact h rfl)
  case ok.ok p q =>
    exact match decEq p q with
      | isTrue h => isTrue (by rw [h])
      | isFalse h => isFalse (by intro hh; cases hh; exact h rfl)
  case error.ok p q => exact isFalse (by intro h; cases h)
  case ok.error p q => exact isFalse (by intro h; cases h)

/-! ## Bit-stream reader (`num/bits.rs`, `BitStreamReader`)

`AccRepr = usize` is 64 bits wide; the accumulator arithmetic is performed
modulo `2 ^ 64` exactly where the source works in `usize`. -/

structure BitStreamReader where
  acc : Nat
  left : Nat
  slice : List Nat
deriving DecidableEq, Repr

namespace BitStreamReader

def new (s : List Nat) : BitStreamReader := ⟨0, 0, s⟩

/-- `_iter_next`: split off the first byte of the slice. -/
def iterNext (r : BitStreamReader) : Option (Nat × BitStreamReader) :=
  match r.slice with
  | [] => none
  | b :: t => some (b, ⟨r.acc, r.left, t⟩)

/-- `_advance` (requires `bits ≤ left`). -/
def advanceFast (bits : Nat) (r : BitStreamReader) : BitStreamReader :=
  ⟨r.acc >>> bits, r.left - bits, r.slice⟩

/-- The byte-dropping loop of `advance` (`while bits_left >= 8`); fuel is
instantiated with `bits_left`, which dominates the iteration count. -/
def advanceDrop : Nat → Nat → List Nat → Option (Nat × List Nat)
  | 0, bitsLeft, s => if 8 ≤ bitsLeft then none else some (bitsLeft, s)
  | fuel + 1, bitsLeft, s =>
    if 8 ≤ bitsLeft then
      match s with
      | [] => none
      | _ :: t => advanceDrop fuel (bitsLeft - 8) t
    else some (bitsLeft, s)

/-- `advance`. -/
def advance (bits : Nat) (r : BitStreamReader) : Option BitStreamReader :=
  if bits ≤ r.left then
    some (advanceFast bits r)
  else
    let bitsLeft := bits - r.left
    match advanceDrop bitsLeft bitsLeft r.slice with
    | none => none
    | some (bl, s) =>
      if 0 < bl then
        match s with
        | [] => none
        | b :: t => some ⟨b >>> bl, 8 - bl, t⟩
      else some ⟨0, 0, s⟩

/-- The refill loop of `read_bits` (`while bits > left`); fuel `bits` dominates
the iteration count since each pass adds 8 buffered bits. -/
def readFill : Nat → Nat → BitStreamReader → Option BitStreamReader
  | 0, bits, r => if r.left < bits then none else some r
  | fuel + 1, bits, r =>
    if r.left < bits then
      match r.slice with
      | [] => none
      | b :: t => readFill fuel bits ⟨(r.acc ||| (b <<< r.left)) % 2 ^ 64, r.left + 8, t⟩
    else some r

/-- `read_bits`. -/
def readBits (bits : Nat) (r : BitStreamReader) : Option (Nat × BitStreamReader) :=
  if bits ≤ r.left then
    some (r.acc &&& mask bits, advanceFast bits r)
  else
    match readFill bits bits r with
    | none => none
    | some r₁ => some (r₁.acc &&& mask bits, advanceFast bits r₁)

/-- The refill loop of `_peek_bits2` (`while left <= 64 - 8`); fuel 8 exceeds
the iteration count (each pass adds 8 bits, and `left ≥ 64` stops it), and
the fuel-0 fallback coincides with the loop-exit result in that situation. -/
def peekLoop : Nat → Nat → BitStreamReader → Option Nat × BitStreamReader
  | 0, bits, r => (some (r.acc &&& mask bits), r)
  | fuel + 1, bits, r =>
    if r.left ≤ 64 - 8 then
      match r.slice with
      | [] => ((if bits ≤ r.left then some (r.acc &&& mask bits) else none), r)
      | b :: t => peekLoop fuel bits ⟨(r.acc ||| (b <<< r.left)) % 2 ^ 64, r.left + 8, t⟩
    else (some (r.acc &&& mask bits), r)

/-- `peek_bits` (mutates the reader by refilling the accumulator). -/
def peekBits (bits : Nat) (r : BitStreamReader) : Option Nat × BitStreamReader :=
  if bits ≤ r.left then
    (some (r.acc &&& mask bits), r)
  else
    peekLoop 8 bits r

/-- `read_bool`. -/
def readBool (r : BitStreamReader) : Option (Bool × BitStreamReader) :=
  match peekBits 1 r with
  | (some v, r₁) => some (decide (v ≠ 0), advanceFast 1 r₁)
  | (none, _) => none

/-- `read_nibble` (`read_bits(4)`, always `< 16` so `Nibble::new` succeeds). -/
def readNibble (r : BitStreamReader) : Option (Nat × BitStreamReader) :=
  readBits 4 r

/-- `read_byte`. -/
def readByte (r : BitStreamReader) : Option (Nat × BitStreamReader) :=
  readBits 8 r

/-- `skip_to_next_byte_boundary`. -/
def skipToByteBoundary (r : BitStreamReader) : BitStreamReader :=
  if r.left &&& 7 ≠ 0 then advanceFast (r.left &&& 7) r else r

/-- `_read_next_byte`. -/
def readNextByteInner (r : BitStreamReader) : Option (Nat × BitStreamReader) :=
  if r.left = 0 then r.iterNext else readByte r

/-- `read_next_byte`. -/
def readNextByte (r : BitStreamReader) : Option (Nat × BitStreamReader) :=
  readNextByteInner (skipToByteBoundary r)

/-- `read_next_bytes::<2>` (the only width `inflate` uses). -/
def readNextBytes2 (r : BitStreamReader) : Option (Nat × Nat × BitStreamReader) :=
  let r := skipToByteBoundary r
  match readNextByteInner r with
  | none => none
  | some (b0, r) =>
    match readNextByteInner r with
    | none => none
    | some (b1, r) => some (b0, b1, r)

/-- Low `count` bytes of the accumulator, low byte first: after byte alignment
these are exactly the buffered-but-unconsumed source bytes, which the source
recovers by rewinding its slice pointer in `read_next_bytes_slice`. -/
def accBytes : Nat → Nat → List Nat
  | 0, _ => []
  | count + 1, acc => (acc &&& 255) :: accBytes count (acc >>> 8)

/-- `read_next_bytes_slice`. -/
def readNextBytesSlice (size : Nat) (r : BitStreamReader) :
    Option (List Nat × BitStreamReader) :=
  let r := skipToByteBoundary r
  if size = 0 then
    some ([], r)
  else
    let r : BitStreamReader :=
      if 0 < r.left then ⟨0, 0, accBytes (r.left / 8) r.acc ++ r.slice⟩ else r
    if size ≤ r.slice.length then
      some (r.slice.take size, ⟨r.acc, r.left, r.slice.drop size⟩)
    else none

/-- Reader invariant: the accumulator only carries `left` meaningful bits,
`left` fits the 64-bit accumulator, and the slice holds bytes. -/
def Inv (r : BitStreamReader) : Prop :=
  r.acc < 2 ^ r.left ∧ r.left ≤ 64 ∧ ∀ b ∈ r.slice, b < 256

/-- The bit sequence still unread: accumulator bits (LSB first), then each
slice byte (LSB first). -/
def natBits (n x : Nat) : List Bool :=
  (List.range n).map (fun i => x.testBit i)

def bytesBits : List Nat → List Bool
  | [] => []
  | b :: t => natBits 8 b ++ bytesBits t

def toBits (r : BitStreamReader) : List Bool :=
  natBits r.left r.acc ++ bytesBits r.slice

/-- Numeric value of a bit list, LSB first. -/
def bitsToNat : List Bool → Nat
  | [] => 0
  | b :: t => (cond b 1 0) + 2 * bitsToNat t

end BitStreamReader

end Compress

namespace Compress

/-! ## Variable-length integers (`num/vl_integer.rs`, `VarLenInteger` /
`VarBitValue`) -/

/-- Reversal of the low `n` bits of `x` (`VarLenInteger::reversed`: the packed
`u32` is bit-reversed and shifted right by `32 - size`, which reverses the low
`size` bits of the payload and discards everything else). -/
def reverseBitsAux : Nat → Nat → Nat → Nat
  | 0, _, acc => acc
  | n + 1, x, acc => reverseBitsAux n (x >>> 1) (acc * 2 + x % 2)

/-- A `(size, value)` pair; the source packs `size` into bits 24-31 of a `u32`
and the value into bits 0-23. -/
structure VarBit where
  size : Nat
  value : Nat
deriving DecidableEq, Repr

namespace VarBit

/-- `VarLenInteger::new` (masks the payload to 24 bits, not to `size`). -/
def mk24 (size v : Nat) : VarBit := ⟨size, v &&& 0xffffff⟩

/-- `VarLenInteger::new_checked`. -/
def newChecked (size v : Nat) : Option VarBit :=
  if v ≤ mask size then some ⟨size, v⟩ else none

/-- `VarLenInteger::with_bool`. -/
def withBool (b : Bool) : VarBit := ⟨1, cond b 1 0⟩

/-- `VarLenInteger::with_byte` (argument is a `u8`). -/
def withByte (v : Nat) : VarBit := ⟨8, v⟩

/-- `VarLenInteger::with_nibble` (argument is `< 16`). -/
def withNibble (v : Nat) : VarBit := ⟨4, v⟩

/-- `VarLenInteger::reversed`. -/
def reversed (v : VarBit) : VarBit := ⟨v.size, reverseBitsAux v.size v.value 0⟩

end VarBit

/-! ## Bit-stream writer (`num/bits.rs`, `BitStreamWriter`) -/

structure BitStreamWriter where
  buf : List Nat
  acc : Nat
  bitPos : Nat
deriving DecidableEq, Repr

namespace BitStreamWriter

def new : BitStreamWriter := ⟨[], 0, 0⟩

def bitCount (w : BitStreamWriter) : Nat := w.buf.length * 8 + w.bitPos

/-- The whole-byte loop of `push` (`while remain_bits >= 8`); fuel 3 covers
`size ≤ 24`.  Returns the extended buffer, the remaining accumulator and the
remaining bit count. -/
def pushWhole : Nat → Nat → Nat → List Nat → List Nat × Nat × Nat
  | 0, remain, acc32, buf => (buf, acc32, remain)
  | fuel + 1, remain, acc32, buf =>
    if 8 ≤ remain then pushWhole fuel (remain - 8) (acc32 >>> 8) (buf ++ [acc32 % 256])
    else (buf, acc32, remain)

/-- `BitStreamWriter::push`.  The partial-byte accumulator is a `u8`, so its
arithmetic is taken modulo 256 exactly where the source casts to `u8`. -/
def push (w : BitStreamWriter) (v : VarBit) : BitStreamWriter :=
  let lowestBits := 8 - w.bitPos
  let lowestBitMask := mask (min v.size lowestBits) % 256
  let acc0 := (w.acc ||| ((((v.value % 256) &&& lowestBitMask) <<< w.bitPos) % 256)) % 256
  if 8 ≤ w.bitPos + v.size then
    let buf1 := w.buf ++ [acc0]
    let remain := v.size - lowestBits
    if 0 < remain then
      let acc32 := (v.value &&& mask v.size) >>> lowestBits
      let (buf2, accFinal, remFinal) := pushWhole 3 remain acc32 buf1
      ⟨buf2, accFinal % 256, remFinal⟩
    else ⟨buf1, 0, 0⟩
  else ⟨w.buf, acc0, w.bitPos + v.size⟩

def pushBool (w : BitStreamWriter) (b : Bool) : BitStreamWriter :=
  w.push (VarBit.withBool b)

def pushByte (w : BitStreamWriter) (v : Nat) : BitStreamWriter :=
  w.push (VarBit.withByte v)

def pushNibble (w : BitStreamWriter) (v : Nat) : BitStreamWriter :=
  w.push (VarBit.withNibble v)

def pushSlice (w : BitStreamWriter) (vs : List VarBit) : BitStreamWriter :=
  vs.foldl push w

/-- `skip_to_next_byte_boundary`. -/
def skipToBoundary (w : BitStreamWriter) : BitStreamWriter :=
  if 0 < w.bitPos then ⟨w.buf ++ [w.acc], 0, 0⟩ else w

/-- `extend_from_slice`. -/
def extendBytes (w : BitStreamWriter) (bytes : List Nat) : BitStreamWriter :=
  let w := w.skipToBoundary
  ⟨w.buf ++ bytes, w.acc, w.bitPos⟩

/-- `into_bytes`. -/
def intoBytes (w : BitStreamWriter) : List Nat :=
  (w.skipToBoundary).buf

end BitStreamWriter

end Compress

namespace Compress

/-- Remaining bits buffered or unread by a reader (used to size loop fuel). -/
def bitsRem (r : BitStreamReader) : Nat := r.left + 8 * r.slice.length

/-- Loop result: `none` is fuel exhaustion, `some` the source's result. -/
abbrev Res (α : Type) : Type := Option (Except DecodeError α)

/-! ## Canonical prefix decoder (`entropy/prefix/decode.rs`) -/

/-- `REP3P2` / `REP3Z3` / `REP11Z7` escape symbols. -/
def REP3P2 : Nat := 16
def REP3Z3 : Nat := 17
def REP11Z7 : Nat := 18

/-- `PermutationFlavor::Deflate` order. -/
def permDeflate : List Nat := [16, 17, 18, 0, 8, 7, 9, 6, 10, 5, 11, 4, 12, 3, 13, 2, 14, 1, 15]

/-- `LookupTableEntry::new` (a `u16` packing `bits` in 0-3 and the symbol from
bit 7; symbols stay below `2 ^ 9` in use so the `u16` arithmetic never wraps,
kept modulo `2 ^ 16` for fidelity). -/
def lookupEntryNew (symbol1 bits : Nat) : Option Nat :=
  if 15 < bits then none else some ((bits ||| (symbol1 <<< 7)) % 65536)

/-- `LookupTableEntry::bit_len` (`BitSize::new(entry & 15)`). -/
def lookupEntryBitLen (e : Nat) : Option Nat :=
  if e &&& 15 = 0 then none else some (e &&& 15)

/-- `LookupTableEntry::symbol1`. -/
def lookupEntrySym (e : Nat) : Nat := e >>> 7

/-- `LitLen2` (the tagged result of the two-literal decoder; the `EndOfBlock`
dummy payload is dropped since the source never reads it back). -/
inductive LitLen2 where
  | EndOfBlock
  | Single (a : Nat)
  | Double (a b : Nat)
  | Length (code : Nat)
deriving DecidableEq, Repr

/-- `LitLen2::from_lit_len`. -/
def LitLen2.fromLitLen (v : Nat) : LitLen2 :=
  if v < 256 then .Single v
  else if v = 256 then .EndOfBlock
  else .Length (v - 257)

/-- A `LookupTableEntry2`: `none` is the all-zero `EMPTY` entry, `some` pairs
the unpacked `LitLen2` with the advance width (the source's `u32` packing
round-trips, witnessed by its `literal2_repr` test, so the embedding carries
the unpacked content). -/
abbrev LookupEntry2 : Type := Option (LitLen2 × Nat)

structure CanonicalPrefixDecoder where
  lookupTable : Array Nat
  lookupTable2 : Array LookupEntry2
  decodeTree : Array Nat
  peekBits : Nat
  maxBits : Nat
  minBits : Nat
  maxSymbol : Nat
deriving Repr

namespace CanonicalPrefixDecoder

/-- The canonical-code shift loop in `reorder_prefix_table`
(`while last_bits < adj { acc <<= 1; adj -= 1 }`); fuel `adj` dominates. -/
def canonShift (last : Nat) : Nat → Nat → Nat → Nat
  | 0, _, acc => acc
  | fuel + 1, adj, acc =>
    if last < adj then canonShift last fuel (adj - 1) (acc <<< 1) else acc

/-- The code-assignment fold of `reorder_prefix_table`.  `BitSize::new(bits)`
is `none` above 24 (the source unwraps it, which cannot fail for the ≤ 15
lengths DEFLATE feeds it; modelled as `InvalidData`). -/
def reorderLoop : List (Nat × Nat) → Nat → Nat → Except DecodeError (List (Nat × VarBit))
  | [], _, _ => .ok []
  | (k, bits) :: rest, acc, lastBits =>
    let acc := canonShift lastBits bits bits acc
    if bits = 0 ∨ 24 < bits then .error .InvalidData
    else
      match VarBit.newChecked bits acc with
      | none => .error .InvalidData
      | some vb =>
        match reorderLoop rest (acc + 1) bits with
        | .error e => .error e
        | .ok tl => .ok ((k, vb) :: tl)

/-- `reorder_prefix_table` over `(key, length)` pairs. -/
def reorderPrefixTable (prefixes : List (Nat × Nat)) :
    Except DecodeError (List (Nat × VarBit)) :=
  let pr := sortByCmp
    (fun a b =>
      match compare a.2 b.2 with
      | Ordering.eq => compare a.1 b.1
      | ord => ord)
    (prefixes.filter (fun kv => 0 < kv.2))
  reorderLoop pr 0 0

/-- One step of `insert_node`'s walk (counted loop `for _ in 1..size`): reads
the addressed half-cell, errors on a leaf, follows or creates a child.  The
index/shift arithmetic is `u32`, taken modulo `2 ^ 32` where the source casts. -/
def insertStep (tree : Array Nat) (index rpath : Nat) :
    Except DecodeError (Array Nat × Nat × Nat) :=
  let bit := rpath &&& 1
  let cell := tree.getD index 0
  let next := if bit ≠ 0 then cell >>> 16 else cell &&& 0xffff
  if next &&& 0x8000 ≠ 0 then .error .InvalidData
  else if next = 0 then
    let newIndex := tree.size
    let tree :=
      if bit ≠ 0 then tree.set! index ((cell ||| ((newIndex <<< 16) % 2 ^ 32)) % 2 ^ 32)
      else tree.set! index ((cell ||| (newIndex % 2 ^ 32)) % 2 ^ 32)
    .ok (tree.push 0, newIndex, rpath >>> 1)
  else .ok (tree, next, rpath >>> 1)

def insertWalk : Nat → Array Nat → Nat → Nat → Except DecodeError (Array Nat × Nat × Nat)
  | 0, tree, index, rpath => .ok (tree, index, rpath)
  | steps + 1, tree, index, rpath =>
    match insertStep tree index rpath with
    | .error e => .error e
    | .ok (tree, index, rpath) => insertWalk steps tree index rpath

/-- `insert_node`. -/
def insertNode (tree : Array Nat) (path : VarBit) (value : Nat) :
    Except DecodeError (Array Nat) :=
  let rpath := (path.reversed).value
  match insertWalk (path.size - 1) tree 0 rpath with
  | .error e => .error e
  | .ok (tree, index, rpath) =>
    let bit := rpath &&& 1
    let cell := tree.getD index 0
    if bit ≠ 0 then
      .ok (tree.set! index ((cell ||| (((0x8000 ||| value) <<< 16) % 2 ^ 32)) % 2 ^ 32))
    else
      .ok (tree.set! index ((cell ||| (0x8000 ||| value)) % 2 ^ 32))

/-- One lookup-table fill walk (`while path < max { table[path] = entry;
path += delta }`); fuel = table size dominates since `delta ≥ 1`. -/
def tableFill {α : Type} (entry : α) (delta : Nat) : Nat → Nat → Array α → Array α
  | 0, _, tbl => tbl
  | fuel + 1, path, tbl =>
    if path < tbl.size then tableFill entry delta fuel (path + delta) (tbl.set! path entry)
    else tbl

/-- Fill of the plain lookup table (the `!is_lzss_lit` branch). -/
def fillLookup1 (pt : List (Nat × VarBit)) (peek : Nat) : Array Nat :=
  pt.foldl
    (fun tbl (sv : Nat × VarBit) =>
      let sym1 := sv.1
      let path1 := sv.2
      if peek < path1.size then tbl
      else
        match lookupEntryNew sym1 path1.size with
        | none => tbl
        | some entry =>
          tableFill entry ((1 : Nat) <<< path1.size) tbl.size
            (path1.reversed).value tbl)
    (Array.mkArray ((1 : Nat) <<< peek) 0)

/-- Fill of the two-literal lookup table (the `is_lzss_lit` branch).  The
`prefix_table2` filter `path.size() <= peek_bits - min_bits` is a `usize`
subtraction, which wraps when `min_bits > peek_bits`; the disjunction below
reproduces the wrapped comparison. -/
def fillLookup2 (pt : List (Nat × VarBit)) (peek minBits : Nat) : Array LookupEntry2 :=
  let pt2 : List (Nat × VarBit) :=
    (pt.filter (fun sv => sv.1 < 256 ∧ (peek < minBits ∨ sv.2.size + minBits ≤ peek))).map
      (fun sv => (sv.1, sv.2.reversed))
  pt.foldl
    (fun tbl (sv : Nat × VarBit) =>
      let sym1 := sv.1
      let path1 := sv.2
      if peek < path1.size then tbl
      else
        let entry : LookupEntry2 := some (LitLen2.fromLitLen sym1, path1.size)
        let rpath1 := (path1.reversed).value
        let tbl := tableFill entry ((1 : Nat) <<< path1.size) tbl.size rpath1 tbl
        if 255 < sym1 ∨ peek < path1.size + minBits then tbl
        else
          pt2.foldl
            (fun tbl (sw : Nat × VarBit) =>
              let sym2 := sw.1
              let path2 := sw.2
              let pathLen := path1.size + path2.size
              if 24 < pathLen then tbl
              else if peek < pathLen then tbl
              else
                let entry : LookupEntry2 :=
                  some (LitLen2.Double (sym1 % 256) (sym2 % 256), pathLen)
                let start := rpath1 ||| (path2.value <<< path1.size)
                tableFill entry ((1 : Nat) <<< pathLen) tbl.size start tbl)
            tbl)
    (Array.mkArray ((1 : Nat) <<< peek) (none : LookupEntry2))

def MAX_LOOKUP_TABLE_BITS : Nat := 12

/-- `CanonicalPrefixDecoder::with_lengths`. -/
def withLengths (lengths : List Nat) (isLzssLit : Bool) :
    Except DecodeError CanonicalPrefixDecoder :=
  match reorderPrefixTable lengths.enum with
  | .error e => .error e
  | .ok pt =>
    if pt.length < 2 then .error .InvalidData
    else
      match (pt.map (fun sv => sv.1)).max?, (pt.map (fun sv => sv.2.size)).max?,
          (pt.map (fun sv => sv.2.size)).min? with
      | some maxSymbol, some maxBits, some minBits =>
        let peek := if isLzssLit then min (maxBits * 2) MAX_LOOKUP_TABLE_BITS
          else min maxBits MAX_LOOKUP_TABLE_BITS
        match pt.foldlM (fun tr (sv : Nat × VarBit) => insertNode tr sv.2 sv.1) #[0] with
        | .error e => .error e
        | .ok tree =>
          if isLzssLit then
            .ok ⟨#[], fillLookup2 pt peek minBits, tree, peek, maxBits, minBits, maxSymbol⟩
          else
            .ok ⟨fillLookup1 pt peek, #[], tree, peek, maxBits, minBits, maxSymbol⟩
      | _, _, _ => .error .InvalidData

/-- `decode_slow`'s tree walk; one bit is consumed per pass, so fuel
`bitsRem + 1` cannot run out before `read_bool` reports EOF. -/
def decodeSlowLoop : Nat → Array Nat → Nat → BitStreamReader →
    Res (Nat × BitStreamReader)
  | 0, _, _, _ => none
  | fuel + 1, tree, index, r =>
    match BitStreamReader.readBool r with
    | none => some (.error .UnexpectedEof)
    | some (bit, r₁) =>
      let cell := tree.getD index 0
      let next := if bit then cell >>> 16 else cell
      if next &&& 0x8000 = 0 then decodeSlowLoop fuel tree (next % 65536) r₁
      else some (.ok (next &&& 0x7fff, r₁))

def decodeSlow (d : CanonicalPrefixDecoder) (r : BitStreamReader) :
    Res (Nat × BitStreamReader) :=
  decodeSlowLoop (bitsRem r + 1) d.decodeTree 0 r

/-- `decode`.  After a successful peek of `peek_bits ≥ bits` buffered bits the
`advance` call always takes its fast path, so its ignored `Option` result is
modelled with `getD`. -/
def decode (d : CanonicalPrefixDecoder) (r : BitStreamReader) :
    Res (Nat × BitStreamReader) :=
  match BitStreamReader.peekBits d.peekBits r with
  | (some key, r₁) =>
    match d.lookupTable[key]? with
    | none => some (.error .InvalidData)
    | some entry =>
      match lookupEntryBitLen entry with
      | some bits =>
        some (.ok (lookupEntrySym entry, (BitStreamReader.advance bits r₁).getD r₁))
      | none => decodeSlow d r₁
  | (none, r₁) => decodeSlow d r₁

def decode2Slow (d : CanonicalPrefixDecoder) (r : BitStreamReader) :
    Res (LitLen2 × BitStreamReader) :=
  match decodeSlow d r with
  | none => none
  | some (.error e) => some (.error e)
  | some (.ok (v, r₁)) => some (.ok (LitLen2.fromLitLen v, r₁))

/-- `decode2`. -/
def decode2 (d : CanonicalPrefixDecoder) (r : BitStreamReader) :
    Res (LitLen2 × BitStreamReader) :=
  match BitStreamReader.peekBits d.peekBits r with
  | (some key, r₁) =>
    match d.lookupTable2[key]? with
    | none => some (.error .InvalidData)
    | some entry =>
      match entry with
      | some (lit, bits) =>
        some (.ok (lit, (BitStreamReader.advance bits r₁).getD r₁))
      | none => decode2Slow d r₁
  | (none, r₁) => decode2Slow d r₁

/-- The header loop of `decode_prefix_table_deflate`: 3-bit lengths in
permutation order. -/
def dptHeader : List Nat → Array Nat → BitStreamReader →
    Except DecodeError (Array Nat × BitStreamReader)
  | [], lengths, r => .ok (lengths, r)
  | index :: rest, lengths, r =>
    match BitStreamReader.readBits 3 r with
    | none => .error .InvalidData
    | some (prefixBit, r₁) => dptHeader rest (lengths.set! index prefixBit) r₁

/-- The RLE body loop of `decode_prefix_table_deflate`; every pass appends at
least one length, so fuel `output_size + 1` dominates. -/
def dptLoop : Nat → CanonicalPrefixDecoder → BitStreamReader → List Nat → Nat → Nat →
    Res (List Nat × BitStreamReader)
  | 0, _, _, _, _, _ => none
  | fuel + 1, dec, r, output, prev, outputSize =>
    if output.length < outputSize then
      match decode dec r with
      | none => none
      | some (.error e) => some (.error e)
      | some (.ok (decoded0, r₁)) =>
        let decoded := decoded0 % 256
        if decoded ≤ 15 then
          dptLoop fuel dec r₁ (output ++ [decoded]) decoded outputSize
        else if decoded = REP3P2 then
          match BitStreamReader.readBits 2 r₁ with
          | none => some (.error .InvalidData)
          | some (e2, r₂) =>
            dptLoop fuel dec r₂ (output ++ List.replicate (3 + e2) prev) prev outputSize
        else if decoded = REP3Z3 then
          match BitStreamReader.readBits 3 r₁ with
          | none => some (.error .InvalidData)
          | some (e3, r₂) =>
            dptLoop fuel dec r₂ (output ++ List.replicate (3 + e3) 0) 0 outputSize
        else if decoded = REP11Z7 then
          match BitStreamReader.readBits 7 r₁ with
          | none => some (.error .InvalidData)
          | some (e7, r₂) =>
            dptLoop fuel dec r₂ (output ++ List.replicate (11 + e7) 0) 0 outputSize
        else some (.error .InvalidData)
    else some (.ok (output, r))

/-- `decode_prefix_table_deflate` (the previous length starts at 0, "not
strictly defined" per the source comment). -/
def decodePrefixTableDeflate (r : BitStreamReader) (output : List Nat)
    (outputSize : Nat) : Res (List Nat × BitStreamReader) :=
  match BitStreamReader.readNibble r with
  | none => some (.error .InvalidData)
  | some (nib, r₁) =>
    let numPrefixes := 4 + nib
    match dptHeader (permDeflate.take numPrefixes) (Array.mkArray 19 0) r₁ with
    | .error e => some (.error e)
    | .ok (lengths, r₂) =>
      match withLengths lengths.toList false with
      | .error e => some (.error e)
      | .ok dec => dptLoop (outputSize + 1) dec r₂ output 0 outputSize

end CanonicalPrefixDecoder

/-! ## Length/distance variable-length integers (`deflate/mod.rs`) -/

/-- `VARIABLE_LENGTH_BASE_TABLE` (extra-bit width, base value). -/
def lenBaseTable : List (Option Nat × Nat) :=
  [(none, 3), (none, 4), (none, 5), (none, 6), (none, 7), (none, 8), (none, 9),
   (none, 10), (some 1, 11), (some 1, 13), (some 1, 15), (some 1, 17),
   (some 2, 19), (some 2, 23), (some 2, 27), (some 2, 31), (some 3, 35),
   (some 3, 43), (some 3, 51), (some 3, 59), (some 4, 67), (some 4, 83),
   (some 4, 99), (some 4, 115), (some 5, 131), (some 5, 163), (some 5, 195),
   (some 5, 227), (none, 258)]

/-- `VARIABLE_DISTANCE_BASE_TABLE`. -/
def distBaseTable : List (Option Nat × Nat) :=
  [(none, 1), (none, 2), (none, 3), (none, 4), (some 1, 5), (some 1, 7),
   (some 2, 9), (some 2, 13), (some 3, 17), (some 3, 25), (some 4, 33),
   (some 4, 49), (some 5, 65), (some 5, 97), (some 6, 129), (some 6, 193),
   (some 7, 257), (some 7, 385), (some 8, 513), (some 8, 769), (some 9, 1025),
   (some 9, 1537), (some 10, 2049), (some 10, 3073), (some 11, 4097),
   (some 11, 6145), (some 12, 8193), (some 12, 12289), (some 13, 16385),
   (some 13, 24577)]

/-- `LenType::decode_value` / `DistanceType::decode_value` (generic over the
base table). -/
def vliDecodeValue (table : List (Option Nat × Nat)) (leading : Nat)
    (r : BitStreamReader) : Option (Nat × BitStreamReader) :=
  match table[leading]? with
  | none => none
  | some (some extBit, minValue) =>
    match BitStreamReader.readBits extBit r with
    | none => none
    | some (t, r₁) => some (minValue + t, r₁)
  | some (none, minValue) => some (minValue, r)

/-! ## LZ output buffer (`lz/lz.rs`, `LzOutputBuffer`) -/

structure LzOutputBuffer where
  buffer : List Nat
  position : Nat
deriving DecidableEq, Repr

namespace LzOutputBuffer

def mkNew (buffer : List Nat) : LzOutputBuffer := ⟨buffer, 0⟩

def isEof (b : LzOutputBuffer) : Bool := b.buffer.length ≤ b.position

/-- `push_literal`; the Bool mirrors `LzOutputBufferResult`. -/
def pushLiteral (b : LzOutputBuffer) (lit : Nat) : LzOutputBuffer × Bool :=
  if b.position < b.buffer.length then
    (⟨b.buffer.set b.position lit, b.position + 1⟩, true)
  else (b, false)

/-- `extend_from_slice`. -/
def extendFromSlice (b : LzOutputBuffer) (data : List Nat) : LzOutputBuffer × Bool :=
  if b.position + data.length ≤ b.buffer.length then
    (⟨b.buffer.take b.position ++ data ++ b.buffer.drop (b.position + data.length),
      b.position + data.length⟩, true)
  else (b, false)

/-- The byte-by-byte copy of `copy_lz` (`_memcpy` writes then advances both
pointers; the position bookkeeping is folded into the loop). -/
def copyBytes (distance : Nat) : Nat → LzOutputBuffer → LzOutputBuffer
  | 0, b => b
  | k + 1, b =>
    copyBytes distance k
      ⟨b.buffer.set b.position (b.buffer.getD (b.position - distance) 0), b.position + 1⟩

/-- The `distance == 1` fill specialization of `copy_lz` (the preceding byte is
read once, then replicated). -/
def fillBytes (value : Nat) : Nat → LzOutputBuffer → LzOutputBuffer
  | 0, b => b
  | k + 1, b => fillBytes value k ⟨b.buffer.set b.position value, b.position + 1⟩

/-- `copy_lz`: clamps `copy_len` to the remaining room (silently truncating an
overflowing match) and only fails when `distance` exceeds the bytes written
so far. -/
def copyLz (b : LzOutputBuffer) (distance copyLen : Nat) : Option LzOutputBuffer :=
  if b.position < distance then none
  else
    let copyLen := min copyLen (b.buffer.length - b.position)
    if distance = 1 then
      some (fillBytes (b.buffer.getD (b.position - 1) 0) copyLen b)
    else
      some (copyBytes distance copyLen b)

end LzOutputBuffer

end Compress

namespace Compress

/-! ## DEFLATE decoder (`deflate/inflate.rs`) -/

open CanonicalPrefixDecoder in
/-- The two-literal body loop of `_decode_block` (the `lengths_dist.len() >= 2`
branch).  Every pass consumes at least one bit, so fuel `bitsRem + 2`
dominates.  Literal-push failures are discarded (`let _ = ...` in the
source). -/
def decodeBlockLoop2 : Nat → CanonicalPrefixDecoder → CanonicalPrefixDecoder →
    BitStreamReader → LzOutputBuffer → Res (BitStreamReader × LzOutputBuffer)
  | 0, _, _, _, _ => none
  | fuel + 1, dlit, ddist, r, out =>
    if out.isEof then some (.ok (r, out))
    else
      match decode2 dlit r with
      | none => none
      | some (.error e) => some (.error e)
      | some (.ok (lit2, r₁)) =>
        match lit2 with
        | .Single a => decodeBlockLoop2 fuel dlit ddist r₁ (out.pushLiteral a).1
        | .Double a b =>
          decodeBlockLoop2 fuel dlit ddist r₁ (((out.pushLiteral a).1).pushLiteral b).1
        | .Length code =>
          match vliDecodeValue lenBaseTable code r₁ with
          | none => some (.error .InvalidData)
          | some (len, r₂) =>
            match decode ddist r₂ with
            | none => none
            | some (.error e) => some (.error e)
            | some (.ok (dsym, r₃)) =>
              match vliDecodeValue distBaseTable (dsym % 256) r₃ with
              | none => some (.error .InvalidData)
              | some (dist, r₄) =>
                match out.copyLz dist len with
                | none => some (.error .InvalidData)
                | some out₁ => decodeBlockLoop2 fuel dlit ddist r₄ out₁
        | .EndOfBlock => some (.ok (r₁, out))

open CanonicalPrefixDecoder in
/-- The plain body loop of `_decode_block` (fewer than two distance lengths).
Symbols above 256 are silently skipped, matching the source's `if`/`else if`
chain with no further arm. -/
def decodeBlockLoop1 : Nat → CanonicalPrefixDecoder → BitStreamReader →
    LzOutputBuffer → Res (BitStreamReader × LzOutputBuffer)
  | 0, _, _, _ => none
  | fuel + 1, dlit, r, out =>
    if out.isEof then some (.ok (r, out))
    else
      match decode dlit r with
      | none => none
      | some (.error e) => some (.error e)
      | some (.ok (lit, r₁)) =>
        if lit < 256 then decodeBlockLoop1 fuel dlit r₁ (out.pushLiteral (lit % 256)).1
        else if lit = 256 then some (.ok (r₁, out))
        else decodeBlockLoop1 fuel dlit r₁ out

open CanonicalPrefixDecoder in
/-- `_decode_block`. -/
def decodeBlockFn (r : BitStreamReader) (out : LzOutputBuffer)
    (lengthsLit lengthsDist : List Nat) : Res (BitStreamReader × LzOutputBuffer) :=
  if 2 ≤ lengthsDist.length then
    match withLengths lengthsLit true with
    | .error e => some (.error e)
    | .ok dlit =>
      match withLengths lengthsDist false with
      | .error e => some (.error e)
      | .ok ddist => decodeBlockLoop2 (bitsRem r + 2) dlit ddist r out
  else
    match withLengths lengthsLit false with
    | .error e => some (.error e)
    | .ok dlit => decodeBlockLoop1 (bitsRem r + 2) dlit r out

/-- The fixed-Huffman literal/length table (`0..144 → 8`, `144..256 → 9`,
`256..280 → 7`, `280..288 → 8`). -/
def fixedLengthsLit : List Nat :=
  (List.range 288).map
    (fun i => if i < 144 then 8 else if i < 256 then 9 else if i < 280 then 7 else 8)

def fixedLengthsDist : List Nat := List.replicate 32 5

open CanonicalPrefixDecoder in
/-- The `match btype` arms of `inflate_in_place`'s block loop, split out of the
loop for proof convenience. -/
def inflateStep (btype : Nat) (r₂ : BitStreamReader) (out : LzOutputBuffer) :
    Res (BitStreamReader × LzOutputBuffer) :=
  if btype = 0 then
    -- stored block
    match BitStreamReader.readNextBytes2 r₂ with
    | none => some (.error .UnexpectedEof)
    | some (l0, l1, r₃) =>
      let len := l0 ||| (l1 <<< 8)
      match BitStreamReader.readNextBytes2 r₃ with
      | none => some (.error .UnexpectedEof)
      | some (n0, n1, r₄) =>
        let nlen := n0 ||| (n1 <<< 8)
        -- `len != !nlen` with `!` the u16 complement
        if len ≠ 65535 - nlen then some (.error .InvalidData)
        else
          match BitStreamReader.readNextBytesSlice len r₄ with
          | none => some (.error .UnexpectedEof)
          | some (bytes, r₅) =>
            match out.extendFromSlice bytes with
            | (_, false) => some (.error .InvalidData)
            | (out₁, true) => some (.ok (r₅, out₁))
  else if btype = 1 then
    decodeBlockFn r₂ out fixedLengthsLit fixedLengthsDist
  else if btype = 2 then
    match BitStreamReader.readBits 5 r₂ with
    | none => some (.error .UnexpectedEof)
    | some (h1, r₃) =>
      let hlit := 257 + h1
      match BitStreamReader.readBits 5 r₃ with
      | none => some (.error .UnexpectedEof)
      | some (h2, r₄) =>
        let hdist := 1 + h2
        match decodePrefixTableDeflate r₄ [] (hlit + hdist) with
        | none => none
        | some (.error e) => some (.error e)
        | some (.ok (prefixTable, r₅)) =>
          decodeBlockFn r₅ out (prefixTable.take hlit) (prefixTable.drop hlit)
  else some (.error .InvalidData)

/-- The block loop of `inflate_in_place` (`while !output.is_eof()`); each pass
consumes at least the 3 header bits, so fuel `bitsRem + 2` dominates. -/
def inflateLoop : Nat → BitStreamReader → LzOutputBuffer → Res LzOutputBuffer
  | 0, _, _ => none
  | fuel + 1, r, out =>
    if out.isEof then some (.ok out)
    else
      match BitStreamReader.readBool r with
      | none => some (.error .UnexpectedEof)
      | some (bfinal, r₁) =>
        match BitStreamReader.readBits 2 r₁ with
        | none => some (.error .UnexpectedEof)
        | some (btype, r₂) =>
          match inflateStep btype r₂ out with
          | none => none
          | some (.error e) => some (.error e)
          | some (.ok (r₃, out₁)) =>
            if bfinal then some (.ok out₁) else inflateLoop fuel r₃ out₁

/-- `inflate_in_place` (returning the final buffer state). -/
def inflateInPlace (input : List Nat) (output : LzOutputBuffer) : Res LzOutputBuffer :=
  match input with
  | [] => some (.error .UnexpectedEof)
  | leading :: _ =>
    let headerStep : Except DecodeError Nat :=
      if leading &&& 0x0f = 0x08 then
        match input[1]? with
        | none => .error .UnexpectedEof
        | some flg =>
          let cmfFlg := leading * 256 + flg
          if flg &&& 0x20 ≠ 0 then .error .UnsupportedFormat
          else if cmfFlg % 31 ≠ 0 then .error .InvalidData
          else .ok 16
      else .ok 0
    match headerStep with
    | .error e => some (.error e)
    | .ok skip =>
      let r := BitStreamReader.new input
      -- the source discards `reader.advance(skip)`'s Option result
      let r := if skip ≠ 0 then (BitStreamReader.advance skip r).getD r else r
      inflateLoop (bitsRem r + 2) r output

/-- `inflate`. -/
def inflate (input : List Nat) (decodeSize : Nat) : Res (List Nat) :=
  match inflateInPlace input (LzOutputBuffer.mkNew (List.replicate decodeSize 0)) with
  | none => none
  | some (.error e) => some (.error e)
  | some (.ok out) => some (.ok out.buffer)

/-- `inflate`, also exposing the final write position (for stating the
zero-tail property). -/
def inflateWithPos (input : List Nat) (decodeSize : Nat) : Res (List Nat × Nat) :=
  match inflateInPlace input (LzOutputBuffer.mkNew (List.replicate decodeSize 0)) with
  | none => none
  | some (.error e) => some (.error e)
  | some (.ok out) => some (.ok (out.buffer, out.position))

end Compress

namespace Compress

/-- Specification predicate for C9: the write position is in bounds and every
byte at or beyond it is still zero. -/
def TailZeros (b : LzOutputBuffer) : Prop :=
  b.position ≤ b.buffer.length ∧ ∀ i, b.position ≤ i → b.buffer.getD i 0 = 0

end Compress

namespace Compress

/-! ## Suffix array (`lz/lcp/sais.rs`) -/

inductive LorS where
  | L
  | S
  | LMS
deriving DecidableEq, Repr

def LorS.isL : LorS → Bool
  | .L => true
  | _ => false

def LorS.isS (x : LorS) : Bool := !x.isL

def LorS.isLms : LorS → Bool
  | .LMS => true
  | _ => false

namespace SuffixArray

/-- The L/S classification (`s.iter().rev()` starting from the sentinel `S`,
then reversed): position `i` of the result is suffix `i`'s type, the
sentinel's `S` last.  The fold state is `(prev_data, prev_lors, acc)`. -/
def classify (s : List Int) : List LorS :=
  (s.foldr
    (fun data st =>
      let lors := if data < st.1 then LorS.S else if data > st.1 then LorS.L else st.2.1
      (data, lors, lors :: st.2.2))
    ((-1 : Int), LorS.S, [LorS.S])).2.2

/-- The `windowed2` scan collecting `1 + index` whenever an `L` is followed by
an `S` (the LMS positions). -/
def lmsIndexesOf (v : List LorS) : List Nat :=
  (List.range (v.length - 1)).filterMap
    (fun i => if v.getD i .S = .L ∧ v.getD (i + 1) .L = .S then some (1 + i) else none)

def markLms (v : List LorS) (idxs : List Nat) : List LorS :=
  idxs.foldl (fun acc i => acc.set i .LMS) v

/-- Symbol histogram with the sentinel counted at index 0 (`counts[0] = 1`,
`counts[1 + byte] += 1`). -/
def mkCounts (alphabetSize : Nat) (s : List Int) : Array Nat :=
  s.foldl (fun c b => c.set! (1 + b.toNat) (c.getD (1 + b.toNat) 0 + 1))
    ((Array.mkArray alphabetSize 0).set! 0 1)

/-- `make_buckets`: running prefix sums of the counts. -/
def makeBuckets (counts : Array Nat) : Array Nat :=
  ((counts.foldl (fun (st : Nat × List Nat) c => (st.1 + c, (st.1 + c) :: st.2))
    (0, [])).2.reverse).toArray

/-- The body of `sort_type_l`, iterating `i` upward over the (mutating)
`sa`.  `(sa_i as usize).checked_sub(1)` is `None` only for `sa_i == 0`; the
wrapped value produced for `-1` is discarded by the `sa_i != -1` guard, so
both cases skip. -/
def sortTypeLLoop (s : Array Int) (lors : Array LorS) :
    Nat → Nat → Array Int → Array Nat → Array Int × Array Nat
  | 0, _, sa, buckets => (sa, buckets)
  | fuel + 1, i, sa, buckets =>
    let saI := sa.getD i (-1)
    if saI = 0 ∨ saI = -1 then sortTypeLLoop s lors fuel (i + 1) sa buckets
    else
      let index := (saI - 1).toNat
      if (lors.getD index .S).isL then
        let byte := (s.getD index 0).toNat
        let bi := buckets.getD byte 0
        sortTypeLLoop s lors fuel (i + 1) (sa.set! bi (Int.ofNat index))
          (buckets.set! byte (bi + 1))
      else sortTypeLLoop s lors fuel (i + 1) sa buckets

def sortTypeL (counts : Array Nat) (s : Array Int) (sa : Array Int)
    (lors : Array LorS) : Array Int :=
  (sortTypeLLoop s lors sa.size 0 sa (makeBuckets counts)).1

/-- The body of `sort_type_s`, iterating `i` downward (the `Nat` argument is
`i + 1`). -/
def sortTypeSLoop (s : Array Int) (lors : Array LorS) :
    Nat → Array Int → Array Nat → Array Int × Array Nat
  | 0, sa, buckets => (sa, buckets)
  | i + 1, sa, buckets =>
    let saI := sa.getD i (-1)
    if saI = 0 ∨ saI = -1 then sortTypeSLoop s lors i sa buckets
    else
      let index := (saI - 1).toNat
      if (lors.getD index .S).isS then
        let byte := (s.getD index 0).toNat
        let bi := buckets.getD (1 + byte) 0 - 1
        sortTypeSLoop s lors i (sa.set! bi (Int.ofNat index))
          (buckets.set! (1 + byte) bi)
      else sortTypeSLoop s lors i sa buckets

def sortTypeS (counts : Array Nat) (s : Array Int) (sa : Array Int)
    (lors : Array LorS) : Array Int :=
  (sortTypeSLoop s lors sa.size sa (makeBuckets counts)).1

/-- Phase-1 LMS insertion over the reversed `windowed2(lms_indexes)` pairs
`(next, current)`, also recording each LMS substring `s[current..=end]`. -/
def phase1Insert (s : Array Int) (slen : Nat) :
    List (Nat × Nat) → Array Int → Array Nat → List (Nat × List Int) →
    Array Int × List (Nat × List Int)
  | [], sa, _, substrs => (sa, substrs)
  | (p0, p1) :: rest, sa, buckets, substrs =>
    if p1 < slen then
      let byte := (s.getD p1 0).toNat
      let bi := buckets.getD (1 + byte) 0 - 1
      let endI := if p0 ≥ slen then slen - 1 else p0
      let sub := (s.toList.drop p1).take (endI + 1 - p1)
      phase1Insert s slen rest (sa.set! bi (Int.ofNat p1)) (buckets.set! (1 + byte) bi)
        ((p1, sub) :: substrs)
    else phase1Insert s slen rest (sa.set! 0 (Int.ofNat p1)) buckets substrs

def substrGet (m : List (Nat × List Int)) (k : Nat) : Option (List Int) :=
  (m.find? (fun p => p.1 = k)).map (fun p => p.2)

/-- The naming scan over adjacent `lmssa` entries; `names` starts `[0]` and
the counter bumps whenever two adjacent LMS substrings differ. -/
def namesLoop (substrs : List (Nat × List Int)) : List Nat → Nat → List Nat
  | [], _ => []
  | [_], _ => []
  | a :: b :: rest, name =>
    let name := if substrGet substrs a ≠ substrGet substrs b then name + 1 else name
    name :: namesLoop substrs (b :: rest) name

def namesOf (substrs : List (Nat × List Int)) (lmssa : List Nat) : List Nat :=
  0 :: namesLoop substrs lmssa 0

/-- Phase-3 LMS insertion (`lmssa.iter().rev()`; pass the reversed list). -/
def phase3Insert (s : Array Int) (slen : Nat) :
    List Nat → Array Int → Array Nat → Array Int
  | [], sa, _ => sa
  | lms :: rest, sa, buckets =>
    if lms < slen then
      let byte := (s.getD lms 0).toNat
      let bi := buckets.getD (1 + byte) 0 - 1
      phase3Insert s slen rest (sa.set! bi (Int.ofNat lms)) (buckets.set! (1 + byte) bi)
    else phase3Insert s slen rest (sa.set! 0 (Int.ofNat lms)) buckets

/-- `sa_is`.  The recursion on the reduced string at most halves the input,
so fuel `n + 1` from the top call dominates; the recursive branch works on a
fresh `-1`-filled prefix-sized array (the source recurses on a slice of `sa`
it has just `fill(-1)`ed, and `sa` itself is `fill(-1)`ed again right
after). -/
def saIs : Nat → List Int → Array Int → Int → Array Int
  | 0, _, sa, _ => sa
  | fuel + 1, s, sa, alphabetMax =>
    let alphabetSize := (alphabetMax + 2).toNat
    let lors0 := classify s
    let lmsIdx0 := lmsIndexesOf lors0
    let lors1 := markLms lors0 lmsIdx0
    let lmsIdx := lmsIdx0 ++ [s.length]
    let sArr := s.toArray
    let lors := lors1.toArray
    let counts := mkCounts alphabetSize s
    let pairs := ((lmsIdx.zip lmsIdx.tail).map (fun p => (p.2, p.1))).reverse
    let st := phase1Insert sArr s.length pairs sa (makeBuckets counts) []
    let sa := st.1
    let substrs := st.2
    let sa := sortTypeL counts sArr sa lors
    let sa := sortTypeS counts sArr sa lors
    let lmssa := sa.toList.filterMap
      (fun x => if x ≠ -1 ∧ (lors.getD x.toNat .S).isLms then some x.toNat else none)
    let names := namesOf substrs lmssa
    let lmssa :=
      if names.getLast?.getD 0 < names.length - 1 then
        let lmsPairs := sortByCmp (fun a b => compare a.1 b.1) (lmssa.zip names)
        let s2 := lmsPairs.map (fun p => Int.ofNat p.2)
        let alphMax := (lmsPairs.map (fun p => p.2)).foldl max 0
        let sa2 := saIs fuel s2 (Array.mkArray (s2.length + 1) (-1)) (Int.ofNat alphMax)
        (sa2.toList.drop 1).map (fun suffix => lmsIdx.getD suffix.toNat 0)
      else lmssa
    let sa := Array.mkArray sa.size (-1 : Int)
    let sa := phase3Insert sArr s.length lmssa.reverse sa (makeBuckets counts)
    let sa := sortTypeL counts sArr sa lors
    sortTypeS counts sArr sa lors

/-- `SuffixArray::new` (`as_slice` applies the offset-1, dropping the
sentinel). -/
def mkNew (source : List Nat) : List Nat :=
  let s := source.map Int.ofNat
  let alphabetMax := s.foldl (fun a b => if b > a then b else a) 0
  let n := source.length + 1
  let sa := saIs (n + 1) s (Array.mkArray n (-1)) alphabetMax
  (sa.toList.drop 1).map Int.toNat

end SuffixArray

/-! ## LCP array (`lz/lcp/lcp.rs`) -/

/-- The `while` of `_kasai` extending the current common prefix `k`. -/
def kasaiInner (s : Array Nat) (n j i : Nat) : Nat → Nat → Nat
  | 0, k => k
  | fuel + 1, k =>
    if i + k < n ∧ j + k < n ∧ s.getD (i + k) 0 = s.getD (j + k) 0 then
      kasaiInner s n j i fuel (k + 1)
    else k

/-- The `for (i, &rank)` loop of `_kasai` over the enumerated rank array. -/
def kasaiLoop (s : Array Nat) (sa : Array Nat) (n : Nat) :
    List (Nat × Nat) → Nat → Array Nat → Array Nat
  | [], _, lcp => lcp
  | (i, r) :: rest, k, lcp =>
    if r = n - 1 then kasaiLoop s sa n rest 0 (lcp.set! r 0)
    else
      let j := sa.getD (r + 1) 0
      let k := kasaiInner s n j i (n + 1) k
      kasaiLoop s sa n rest (if k > 0 then k - 1 else k) (lcp.set! r k)

structure LcpArray where
  s : Array Nat
  sa : Array Nat
  rank : Array Nat
  lcp : Array Nat
deriving Repr

/-- `LcpArray::new`. -/
def LcpArray.mkNew (s : List Nat) : LcpArray :=
  let sa := (SuffixArray.mkNew s).toArray
  let n := s.length
  let rank := sa.toList.enum.foldl (fun r p => r.set! p.2 p.1) (Array.mkArray n 0)
  let sArr := s.toArray
  let lcp := kasaiLoop sArr sa n rank.toList.enum 0 (Array.mkArray n 0)
  ⟨sArr, sa, rank, lcp⟩

end Compress

namespace Compress

/-! ## LZSS tokens and the hash-offset cache (`lz/lzss.rs`, `lz/cache.rs`) -/

/-- Modelled from the spec: the plain `{len, distance}` match record the LZSS
encoder threads through its selector (the `Matches` type `lzss.rs` uses is
not among the repository's files; the spec describes a match as a
length/distance pair with `Matches::ZERO` meaning "no match yet"). -/
structure Matches where
  len : Nat
  distance : Nat
deriving DecidableEq, Repr

def Matches.ZERO : Matches := ⟨0, 0⟩

def Matches.isZero (m : Matches) : Bool := m.len = 0 && m.distance = 0

/-- `LZSS` (`Literal(u8)` / `Match(Matches)`). -/
inductive LZSS where
  | Literal (value : Nat)
  | Match (m : Matches)
deriving DecidableEq, Repr

/-- Modelled from the spec: the four-argument `matching_len` the fast path
calls (absent from the repository's files): the length of the common prefix
of `data[current..]` and `data[current - distance..]`, capped at `max_len`
("for each candidate compute the true matching length by byte
comparison"). -/
def matchingLen4 (data : Array Nat) (current distance maxLen : Nat) : Nat :=
  let n := min (data.size - current) maxLen
  match (List.range n).find?
      (fun i => data.getD (current + i) 0 ≠ data.getD (current - distance + i) 0) with
  | some i => i
  | none => n

namespace OffsetCache3

/-- Append `v` to the bucket of `k` (`entry(..).and_modify(push).or_insert`);
buckets are kept as an association list, which matches the map observationally
(all reads go through `get`). -/
def assocPush (cache : List (Nat × List Nat)) (k v : Nat) : List (Nat × List Nat) :=
  match cache with
  | [] => [(k, [v])]
  | (k₁, l) :: rest =>
    if k₁ = k then (k₁, l ++ [v]) :: rest else (k₁, l) :: assocPush rest k v

def assocGet : List (Nat × List Nat) → Nat → Option (List Nat)
  | [], _ => none
  | (k₁, l) :: rest, k => if k₁ = k then some l else assocGet rest k

/-- The index of the last element `< m`, if any (`OffsetList::retain`'s
reverse scan). -/
def lastIdxLt (l : List Nat) (m : Nat) : Option Nat :=
  (l.enum.foldl (fun acc p => if p.2 < m then some p.1 else acc) none)

/-- `OffsetList::retain`: drop the entry when the most recent offset is
stale, otherwise drain everything up to and including the last stale one. -/
def retainList (l : List Nat) (m : Nat) : Option (List Nat) :=
  match l.getLast? with
  | none => none
  | some v =>
    if v < m then none
    else
      match lastIdxLt l m with
      | none => some l
      | some i => some (l.drop (i + 1))

/-- `cache.retain(|_k, v| v.retain(min_value))`. -/
def cacheRetain (cache : List (Nat × List Nat)) (m : Nat) : List (Nat × List Nat) :=
  cache.filterMap (fun p => (retainList p.2 m).map (fun l => (p.1, l)))

end OffsetCache3

/-- `Matching3Cache<Matching3BKey>` (`OffsetCache3`): the 3-byte hash cache.
The key is the next three bytes packed little-endian (24 bits of a `u32`). -/
structure OffsetCache3 where
  source : Array Nat
  key : Nat
  cache : List (Nat × List Nat)
  cursor : Nat
  limit : Nat
  maxDistance : Nat
  purgeCount : Nat
  purgeLimit : Nat
deriving Repr

namespace OffsetCache3

def mkNew (source : List Nat) (maxDistance purgeLimit : Nat) : OffsetCache3 :=
  let src := source.toArray
  if source.length < 4 then
    ⟨src, 0, [], 0, 0, maxDistance, 0, 0⟩
  else
    ⟨src, source.getD 0 0 ||| (source.getD 1 0 <<< 8) ||| (source.getD 2 0 <<< 16),
      [], 0, source.length - 2, maxDistance, 0,
      if 0 < purgeLimit then purgeLimit else maxDistance * 2⟩

/-- The `for _ in 0..step` body of `advance`: push the key at the cursor, step
the cursor, stop at `limit`, and slide the key by the byte at `cursor + 2`. -/
def advLoop (source : Array Nat) (limit : Nat) :
    Nat → Nat → Nat → List (Nat × List Nat) → Nat × Nat × List (Nat × List Nat)
  | 0, cursor, key, cache => (cursor, key, cache)
  | step + 1, cursor, key, cache =>
    let cache := assocPush cache (key &&& 0xffffff) cursor
    let cursor := cursor + 1
    if limit ≤ cursor then (cursor, key, cache)
    else advLoop source limit step cursor
      ((key >>> 8) ||| ((source.getD (cursor + 2) 0) <<< 16)) cache

/-- `OffsetCache::advance` (a cursor already at the limit returns without
touching the purge counter). -/
def advance (c : OffsetCache3) (step : Nat) : OffsetCache3 :=
  if c.limit ≤ c.cursor then c
  else
    let st := advLoop c.source c.limit step c.cursor c.key c.cache
    let purgeCount := c.purgeCount + step
    if c.purgeLimit ≤ purgeCount then
      let minValue := c.cursor - c.maxDistance
      let newCache := cacheRetain st.2.2 minValue
      { c with cursor := st.1, key := st.2.1, cache := newCache, purgeCount := st.1 % c.maxDistance }
    else
      { c with cursor := st.1, key := st.2.1, cache := st.2.2, purgeCount := purgeCount }

/-- `matches()` followed by a single `iter.next()` (all `encode_fast`
consumes): the most recent cached offset, if still inside the window
(`NonZero::new` drops a zero distance). -/
def firstMatchDistance (c : OffsetCache3) : Option Nat :=
  if c.limit ≤ c.cursor then none
  else
    match assocGet c.cache (c.key &&& 0xffffff) with
    | none => none
    | some l =>
      match l.getLast? with
      | none => none
      | some v =>
        if c.cursor - c.maxDistance ≤ v then
          if c.cursor - v = 0 then none else some (c.cursor - v)
        else none

end OffsetCache3

/-! ## `LZSS::encode_fast` and the LCP path of `LZSS::encode_lcp`
(`lz/lzss.rs`) -/

/-- The match-splitting `loop` shared by both encoders (a match at or above
`max_len` is emitted as repeated `max_len`-sized matches; a tail below
`MIN_LEN = 3` is dropped).  Returns the emitted tokens and the advanced
count. -/
def splitMatchLoop (maxLen distance : Nat) : Nat → Nat → Nat → List LZSS → List LZSS × Nat
  | 0, _, total, acc => (acc, total)
  | fuel + 1, left, total, acc =>
    if maxLen < left then
      splitMatchLoop maxLen distance fuel (left - maxLen) (total + maxLen)
        (acc ++ [LZSS.Match ⟨maxLen, distance⟩])
    else if 3 ≤ left then (acc ++ [LZSS.Match ⟨left, distance⟩], total + left)
    else (acc, total)

/-- The `while let Some(&literal) = input.get(cursor)` loop of `encode_fast`;
every pass advances the cursor by at least one, so fuel `input.size + 1`
dominates. -/
def encodeFastLoop (input : Array Nat) (maxLen : Nat) :
    Nat → Nat → OffsetCache3 → List LZSS → List LZSS
  | 0, _, _, acc => acc
  | fuel + 1, cursor, cache, acc =>
    if input.size ≤ cursor then acc
    else
      let literal := input.getD cursor 0
      let mBest :=
        match cache.firstMatchDistance with
        | none => Matches.ZERO
        | some distance =>
          ⟨matchingLen4 input (cursor + 3) distance (2 ^ 64 - 1) + 3, distance⟩
      let st :=
        if 3 ≤ mBest.len then
          if mBest.len < maxLen then
            (acc ++ [LZSS.Match mBest], mBest.len)
          else splitMatchLoop maxLen mBest.distance (mBest.len + 1) mBest.len 0 acc
        else (acc ++ [LZSS.Literal literal], 1)
      encodeFastLoop input maxLen fuel (cursor + st.2) (cache.advance st.2) st.1

/-- `LZSS::encode_fast` (the closure `f` only collects tokens, as in
`deflate`, so the only error is the empty/oversized-input check). -/
def encodeFast (input : List Nat) (maxDistance maxLen skipFirstLit cachePurgeLimit : Nat) :
    Except EncodeError (List LZSS) :=
  if input.length = 0 ∨ 0x7fffffff < input.length then .error .InvalidInput
  else
    let cursor := 1 + skipFirstLit
    let cache := (OffsetCache3.mkNew input maxDistance cachePurgeLimit).advance cursor
    let toks := (input.take cursor).map LZSS.Literal
    .ok (encodeFastLoop input.toArray maxLen (input.length + 1) cursor cache toks)

/-- The forward candidate walk of the LCP path (`lcp.iter().zip(sa.skip(1))`
from `sa_base_index`); the first element of the result signals the `break`s.
The state is `(i, lcp_limit, matches)`. -/
def lcpForwardLoop (lcp sa : Array Nat) (minOffset cursor : Nat) :
    Nat → Nat → Nat → Matches → Matches
  | 0, _, _, m => m
  | fuel + 1, i, lcpLimit, m =>
    if i < lcp.size ∧ i + 1 < sa.size then
      let l := lcp.getD i 0
      let offset := sa.getD (i + 1) 0
      if l < 3 then m
      else
        let st :=
          if minOffset ≤ offset ∧ offset < cursor then
            let len := min lcpLimit l
            let distance := cursor - offset
            if m.isZero then ((⟨len, distance⟩ : Matches), false)
            else if len < m.len then (m, true)
            else if m.len < len then ((⟨len, distance⟩ : Matches), false)
            else if m.len = len ∧ distance < m.distance then ((⟨m.len, distance⟩ : Matches), false)
            else (m, false)
          else (m, false)
        if st.2 then st.1
        else lcpForwardLoop lcp sa minOffset cursor fuel (i + 1) (min lcpLimit l) st.1
    else m

/-- The backward candidate walk (`lcp[..base].zip(sa[..base]).rev()`); the
`Nat` index argument is `i + 1`. -/
def lcpBackwardLoop (lcp sa : Array Nat) (minOffset cursor : Nat) :
    Nat → Nat → Matches → Matches
  | 0, _, m => m
  | i + 1, lcpLimit, m =>
    let l := lcp.getD i 0
    let offset := sa.getD i 0
    if l < 3 then m
    else
      let st :=
        if minOffset ≤ offset ∧ offset < cursor then
          let len := min lcpLimit l
          let distance := cursor - offset
          if m.isZero then ((⟨len, distance⟩ : Matches), false)
          else if len < m.len then (m, true)
          else if m.len < len then ((⟨len, distance⟩ : Matches), false)
          else if m.len = len ∧ distance < m.distance then ((⟨m.len, distance⟩ : Matches), false)
          else (m, false)
        else (m, false)
      if st.2 then st.1
      else lcpBackwardLoop lcp sa minOffset cursor i (min lcpLimit l) st.1

/-- One cursor step of the LCP path: the best match from the two walks, then
the shared selector. -/
def lcpBestMatch (lcpa : LcpArray) (maxDistance cursor : Nat) : Matches :=
  let minOffset := cursor - maxDistance
  let saBase := lcpa.rank.getD cursor 0
  let mBest :=
    if saBase < lcpa.lcp.size then
      lcpForwardLoop lcpa.lcp lcpa.sa minOffset cursor (lcpa.lcp.size + 1) saBase
        (2 ^ 64 - 1) Matches.ZERO
    else Matches.ZERO
  if 0 < saBase then
    let mBack := lcpBackwardLoop lcpa.lcp lcpa.sa minOffset cursor saBase
      (2 ^ 64 - 1) Matches.ZERO
    if mBest.len < mBack.len ∨
        (mBack.len = mBest.len ∧ mBack.distance < mBest.distance) then
      mBack
    else mBest
  else mBest

/-- The `while` loop of the LCP path of `encode_lcp`. -/
def encodeLcpLoop (input : Array Nat) (lcpa : LcpArray) (maxDistance maxLen : Nat) :
    Nat → Nat → List LZSS → List LZSS
  | 0, _, acc => acc
  | fuel + 1, cursor, acc =>
    if input.size ≤ cursor then acc
    else
      let literal := input.getD cursor 0
      let mBest := lcpBestMatch lcpa maxDistance cursor
      let st :=
        if 3 ≤ mBest.len then
          if mBest.len < maxLen then
            (acc ++ [LZSS.Match mBest], mBest.len)
          else splitMatchLoop maxLen mBest.distance (mBest.len + 1) mBest.len 0 acc
        else (acc ++ [LZSS.Literal literal], 1)
      encodeLcpLoop input lcpa maxDistance maxLen fuel (cursor + st.2) st.1

/-- `LZSS::encode_lcp`: `search_attempts == 1` routes to `encode_fast`,
anything else takes the suffix-array/LCP path. -/
def encodeLcp (input : List Nat)
    (maxDistance maxLen skipFirstLit searchAttempts cachePurgeLimit : Nat) :
    Except EncodeError (List LZSS) :=
  if searchAttempts = 1 then
    encodeFast input maxDistance maxLen skipFirstLit cachePurgeLimit
  else if input.length = 0 ∨ 0x7fffffff < input.length then .error .InvalidInput
  else
    let lcpa := LcpArray.mkNew input
    let cursor := 1 + skipFirstLit
    let toks := (input.take cursor).map LZSS.Literal
    .ok (encodeLcpLoop input.toArray lcpa maxDistance maxLen (input.length + 1) cursor toks)

end Compress

namespace Compress

/-! ## Variable-length integers and `DeflateLZIR` (`deflate/mod.rs`,
`deflate/deflate.rs`) -/

/-- The reversed scan of `LenType::new` / `DistanceType::new` (the `Nat`
argument is `index + 1`). -/
def vliNewLoop (table : List (Option Nat × Nat)) (value : Nat) :
    Nat → Option (Nat × Option (Nat × Nat))
  | 0 => none
  | i + 1 =>
    let item := table.getD i (none, 0)
    if value < item.2 then vliNewLoop table value i
    else
      let v := value - item.2
      let maxValue := (1 <<< item.1.getD 0) - 1
      if maxValue < v then none
      else some (i, item.1.map (fun s => (s, v)))

/-- `var_uint32!`'s `new`: the first base-table row (scanning from the top)
at or below `value`, as `(leading, trailing)`. -/
def vliNew (table : List (Option Nat × Nat)) (value : Nat) :
    Option (Nat × Option (Nat × Nat)) :=
  vliNewLoop table value table.length

/-- `DeflateLZIR::with_match` (the `unwrap`s cannot fail for the encoder's
`3 ≤ len ≤ 258` and `1 ≤ distance ≤ 32768`; the impossible branch yields
0). -/
def lzirWithMatch (len dist : Nat) : Nat :=
  match vliNew lenBaseTable len, vliNew distBaseTable dist with
  | some (li, ltr), some (di, dtr) =>
    (li + 257) ||| (di <<< 9) ||| ((ltr.map (fun t => t.2)).getD 0 <<< 14) |||
      ((dtr.map (fun t => t.2)).getD 0 <<< 19)
  | _, _ => 0

/-- `DeflateLZIR::from_lzss`. -/
def lzirFromLzss : LZSS → Nat
  | .Literal v => v
  | .Match m => lzirWithMatch m.len m.distance

def lzirLiteralValue (x : Nat) : Nat := x &&& 0x1ff

def lzirDistanceValue (x : Nat) : Nat := (x >>> 9) &&& 0x1f

/-- `length_extra_bits`: `(size, raw)` when literal 257..=285 carries extra
bits. -/
def lzirLengthExtra (x : Nat) : Option (Nat × Nat) :=
  let lv := lzirLiteralValue x
  if 257 ≤ lv ∧ lv ≤ 285 then
    ((lenBaseTable.getD (lv - 257) (none, 0)).1).map (fun sz => (sz, (x >>> 14) &&& 0x1f))
  else none

/-- `distance_extra_bits`. -/
def lzirDistanceExtra (x : Nat) : Option (Nat × Nat) :=
  let dv := lzirDistanceValue x
  if dv ≤ 29 then
    ((distBaseTable.getD dv (none, 0)).1).map (fun sz => (sz, x >>> 19))
  else none

/-! ## Canonical prefix coder (`entropy/prefix/encode.rs`) -/

inductive HuffmanTreeNode where
  | Leaf (symbol : Nat) (freq : Nat)
  | Pair (freq : Nat) (l r : HuffmanTreeNode)
deriving Repr

def HuffmanTreeNode.freq : HuffmanTreeNode → Nat
  | .Leaf _ f => f
  | .Pair f _ _ => f

def HuffmanTreeNode.symbol : HuffmanTreeNode → Option Nat
  | .Leaf s _ => some s
  | .Pair _ _ _ => none

/-- `HuffmanTreeNode::order`: frequency descending, ties by symbol
descending, pairs ordered below leaves. -/
def HuffmanTreeNode.order (a b : HuffmanTreeNode) : Ordering :=
  match compare b.freq a.freq with
  | .eq =>
    match a.symbol, b.symbol with
    | some l, some r => compare r l
    | some _, none => .gt
    | none, some _ => .lt
    | none, none => .eq
  | ord => ord

/-- `count_prefix_size` flattened to the list of leaf depths. -/
def HuffmanTreeNode.leafDepths : HuffmanTreeNode → Nat → List Nat
  | .Leaf _ _, d => [d]
  | .Pair _ l r, d => l.leafDepths (d + 1) ++ r.leafDepths (d + 1)

/-- The `while tree.len() > 1` Huffman packing loop: stable-sort by `order`,
pop the two last (smallest) nodes, push their pair. -/
def huffmanLoop : Nat → List HuffmanTreeNode → List HuffmanTreeNode
  | 0, tree => tree
  | fuel + 1, tree =>
    if tree.length ≤ 1 then tree
    else
      let tree := sortByCmp HuffmanTreeNode.order tree
      let left := tree.getLast?.getD (.Leaf 0 0)
      let tree := tree.dropLast
      let right := tree.getLast?.getD (.Leaf 0 0)
      let tree := tree.dropLast
      huffmanLoop fuel (tree ++ [HuffmanTreeNode.Pair (left.freq + right.freq) left right])

/-- The inner `for i in (1..=max_len-1).rev()` of `_adjust_prefix_lengths`
(the `Nat` argument is `i + 1`): the deepest shorter length with a positive
count loses one code, which reappears two levels down. -/
def adjustInner : Nat → List Nat → List Nat
  | 0, pl => pl
  | i + 1, pl =>
    if i = 0 then pl
    else if 0 < pl.getD i 0 then
      (pl.set i (pl.getD i 0 - 1)).set (i + 1) (pl.getD (i + 1) 0 + 2)
    else adjustInner i pl

/-- The `while total > one` loop of `_adjust_prefix_lengths`; each pass
lowers `total` by one, so fuel `total + 1` dominates. -/
def adjustWhile (maxLen : Nat) : Nat → Nat → List Nat → List Nat
  | 0, _, pl => pl
  | fuel + 1, total, pl =>
    if (1 <<< maxLen) < total then
      let pl := pl.set maxLen (pl.getD maxLen 0 - 1)
      let pl := adjustInner maxLen pl
      adjustWhile maxLen fuel (total - 1) pl
    else pl

/-- `_adjust_prefix_lengths` (`.skip(max_len)` zeroes every entry from
`max_len` up, collecting them at `max_len`). -/
def adjustPrefixLengths (pl : List Nat) (maxLen : Nat) : List Nat :=
  if pl.length ≤ maxLen then pl
  else
    let extra := (pl.drop maxLen).foldl (fun a b => a + b) 0
    let pl := (List.range pl.length).map (fun i => if maxLen ≤ i then 0 else pl.getD i 0)
    let pl := pl.set maxLen extra
    let total := ((List.range maxLen).map
      (fun k => pl.getD (k + 1) 0 <<< (maxLen - (k + 1)))).foldl (fun a b => a + b) 0
    adjustWhile maxLen (total + 1) total pl

/-- The per-length code emission of `generate_prefix_table` (the
`while last_bits < adj` shift is `canonShift`). -/
def assignCodesInner (bitLen : Nat) : Nat → Nat → Nat → List VarBit → Nat × Nat × List VarBit
  | 0, acc, lastBits, out => (acc, lastBits, out)
  | cnt + 1, acc, lastBits, out =>
    let acc := CanonicalPrefixDecoder.canonShift lastBits bitLen bitLen acc
    assignCodesInner bitLen cnt (acc + 1) bitLen (out ++ [VarBit.mk24 bitLen acc])

/-- The canonical code-assignment fold of `generate_prefix_table`. -/
def assignCodes (prefixLengths : List Nat) : List VarBit :=
  (prefixLengths.enum.foldl
    (fun (st : Nat × Nat × List VarBit) p => assignCodesInner p.1 p.2 st.1 st.2.1 st.2.2)
    (0, 0, [])).2.2

/-- The frequency comparator shared by the coder (count descending, symbol
ascending on ties). -/
def freqCmp (a b : Nat × Nat) : Ordering :=
  match compare b.2 a.2 with
  | .eq => compare a.1 b.1
  | ord => ord

/-- `CanonicalPrefixCoder::generate_prefix_table` (symbols are `Nat` here;
`ref_tree` is unused by `deflate`). -/
def generatePrefixTable (freqTable : List (Nat × Nat)) (maxLen : Nat) :
    List (Nat × VarBit) :=
  if freqTable.length ≤ 2 then
    let inp := sortByCmp (fun a b => compare a.1 b.1) freqTable
    inp.enum.map (fun p => (p.2.1, VarBit.mk24 1 p.1))
  else
    let ft := sortByCmp freqCmp freqTable
    let tree := huffmanLoop ft.length (ft.map (fun v => HuffmanTreeNode.Leaf v.1 v.2))
    let root := tree.getD 0 (.Leaf 0 0)
    let depths := root.leafDepths 0
    let actualMax := 1 + depths.foldl max 0
    let prefixLengths := (List.range actualMax).map (fun i => depths.count i)
    let prefixLengths := adjustPrefixLengths prefixLengths maxLen
    let prefixCodes := assignCodes prefixLengths
    let pt := (ft.zip prefixCodes).map (fun p => (p.1.1, p.2))
    let pt := sortByCmp
      (fun a b =>
        match compare a.2.size b.2.size with
        | .eq => compare a.1 b.1
        | ord => ord) pt
    (pt.zip prefixCodes).map (fun p => (p.1.1, p.2))

/-- `CanonicalPrefixCoder::make_prefix_table`. -/
def makePrefixTable (freqs : List Nat) (maxLen minSize : Nat) : List (Option VarBit) :=
  let ft := freqs.enum.filterMap (fun p => if 0 < p.2 then some (p.1, p.2) else none)
  let ft := sortByCmp freqCmp ft
  let pt := generatePrefixTable ft maxLen
  let maxSymbol := pt.foldl (fun a v => max a v.1) 0
  let size := max (1 + maxSymbol) minSize
  pt.foldl (fun m p => m.set p.1 (some p.2)) (List.replicate size none)

/-- `rle_match_len`. -/
def rleMatchLen (prevValue : Nat) (data : List Nat) (cursor maxLen : Nat) : Nat :=
  let m := min (data.length - cursor) maxLen
  match (List.range m).find? (fun i => data.getD (cursor + i) 0 ≠ prevValue) with
  | some i => i
  | none => m

/-- The `while let Some(current)` loop of `rle_compress_prefix_table`; every
pass advances the cursor, fuel `input.length + 1` dominates. -/
def rleCompressLoop (input : List Nat) : Nat → Nat → Nat → List VarBit → List VarBit
  | 0, _, _, out => out
  | fuel + 1, cursor, prev, out =>
    if input.length ≤ cursor then out
    else
      let current := input.getD cursor 0
      if 0 < current then
        if current = prev then
          let len := rleMatchLen prev input cursor 6
          if 3 ≤ len then
            rleCompressLoop input fuel (cursor + len) prev
              (out ++ [VarBit.withByte REP3P2, VarBit.mk24 2 (len - 3)])
          else rleCompressLoop input fuel (cursor + 1) prev (out ++ [VarBit.withByte current])
        else rleCompressLoop input fuel (cursor + 1) current (out ++ [VarBit.withByte current])
      else
        let len := rleMatchLen 0 input cursor 138
        if 11 ≤ len then
          rleCompressLoop input fuel (cursor + len) 0
            (out ++ [VarBit.withByte REP11Z7, VarBit.mk24 7 (len - 11)])
        else if 3 ≤ len then
          rleCompressLoop input fuel (cursor + len) 0
            (out ++ [VarBit.withByte REP3Z3, VarBit.mk24 3 (len - 3)])
        else rleCompressLoop input fuel (cursor + 1) 0 (out ++ [VarBit.withByte current])

/-- `MetaPrefixTable` (the fields `deflate` consumes). -/
structure MetaPrefixTable where
  hclen : Nat
  prefixTable : List VarBit
  content : List VarBit
deriving Repr

/-- `CanonicalPrefixCoder::encode_prefix_tables` for a single table with the
DEFLATE permutation (all `deflate` uses).  The `BTreeMap` frequency count
iterates keys ascending (all symbols are < 19). -/
def encodePrefixTables (table0 : List Nat) : MetaPrefixTable :=
  let rle := rleCompressLoop table0 (table0.length + 1) 0 0 []
  let symbols := rle.filterMap (fun b => if b.size = 8 then some b.value else none)
  let freqT := (List.range 19).filterMap
    (fun v => let c := symbols.count v; if 0 < c then some (v, c) else none)
  let freqT := sortByCmp freqCmp freqT
  let pt := generatePrefixTable freqT 7
  let prefixMap : List (Option VarBit) :=
    pt.foldl (fun m p => m.set p.1 (some p.2)) (List.replicate 20 none)
  let compressed := rle.map
    (fun item =>
      if item.size = 8 then ((prefixMap.getD item.value none).getD ⟨0, 0⟩).reversed
      else item)
  let ms := permDeflate.enum.foldl
    (fun (st : Nat × List (Option Nat)) p =>
      match prefixMap.getD p.2 none with
      | some item => (max st.1 p.1, st.2.set p.1 (some item.size))
      | none => st)
    (3, List.replicate 19 none)
  let header := (ms.2.take (1 + ms.1)).map (fun o => VarBit.mk24 3 (o.getD 0))
  ⟨ms.1 - 3, header, compressed⟩

/-! ## Block encoding and `deflate` (`deflate/deflate.rs`) -/

/-- `DeflateIrBlock::new`'s literal histogram (then `freq_count_lit[256] =
1`). -/
def blockFreqLit (block : List Nat) : List Nat :=
  (block.foldl
    (fun f x => f.set (lzirLiteralValue x) (f.getD (lzirLiteralValue x) 0 + 1))
    (List.replicate 288 0)).set 256 1

def blockFreqDist (block : List Nat) : List Nat :=
  block.foldl
    (fun f x => f.set (lzirDistanceValue x) (f.getD (lzirDistanceValue x) 0 + 1))
    (List.replicate 30 0)

/-- The static-Huffman tables of `DeflateIrBlock::encode`
(`reorder_prefix_table` over the fixed lengths never errs there; the error
branch yields an empty literal table). -/
def staticTables : List (Option VarBit) × List (Option VarBit) :=
  let ptDist := (List.range 30).map (fun v => some (VarBit.mk24 5 v))
  match CanonicalPrefixDecoder.reorderPrefixTable fixedLengthsLit.enum with
  | .error _ => ([], ptDist)
  | .ok l => (l.foldl (fun m p => m.set p.1 (some p.2)) (List.replicate 288 none), ptDist)

/-- The dynamic-Huffman tables of `DeflateIrBlock::encode`, including the
one/two-entry distance-table fix-up. -/
def dynamicTables (block : List Nat) : List (Option VarBit) × List (Option VarBit) :=
  let ptLit := makePrefixTable (blockFreqLit block) 15 257
  let ptDist := makePrefixTable (blockFreqDist block) 15 1
  let cnt := (ptDist.filter (fun v => v.isSome)).length
  let ptDist :=
    if cnt = 0 then ptDist ++ [some (VarBit.withBool true), some (VarBit.withBool true)]
    else if cnt < 2 then ptDist ++ [some (VarBit.withBool true)]
    else ptDist
  (ptLit, ptDist)

/-- `DeflateIrBlock::encode` (the `unwrap`ped table lookups cannot miss for
symbols the block actually contains; a miss would push a zero-width code). -/
def blockEncode (block : List Nat) (isFinal : Bool) (w : BitStreamWriter)
    (useStatic : Bool) : BitStreamWriter :=
  let pts := if useStatic then staticTables else dynamicTables block
  let ptLit := pts.1
  let ptDist := pts.2
  let w := w.pushBool isFinal
  let w :=
    if useStatic then w.push (VarBit.mk24 2 1)
    else
      let lengths := (ptLit ++ ptDist).map (fun v => (v.map (fun b => b.size)).getD 0)
      let meta := encodePrefixTables lengths
      let w := w.push (VarBit.mk24 2 2)
      let w := w.push (VarBit.mk24 5 (ptLit.length - 257))
      let w := w.push (VarBit.mk24 5 (ptDist.length - 1))
      let w := w.pushNibble meta.hclen
      let w := w.pushSlice meta.prefixTable
      w.pushSlice meta.content
  let w := block.foldl
    (fun w x =>
      let lv := lzirLiteralValue x
      let w := w.push (((ptLit.getD lv none).getD ⟨0, 0⟩).reversed)
      if 256 < lv then
        let w :=
          match lzirLengthExtra x with
          | some (sz, v) => w.push (VarBit.mk24 sz v)
          | none => w
        let w := w.push (((ptDist.getD (lzirDistanceValue x) none).getD ⟨0, 0⟩).reversed)
        match lzirDistanceExtra x with
        | some (sz, v) => w.push (VarBit.mk24 sz v)
        | none => w
      else w)
    w
  w.push (((ptLit.getD 256 none).getD ⟨0, 0⟩).reversed)

/-- `adler32::checksum`. -/
def adler32 (data : List Nat) : Nat :=
  let st := data.foldl
    (fun (s : Nat × Nat) b =>
      let s1 := (s.1 + b) % 65521
      (s1, (s.2 + s1) % 65521))
    (1, 0)
  (st.2 <<< 16) ||| st.1

inductive CompressionLevel where
  | Fastest
  | Fast
  | Default
  | Best
deriving DecidableEq, Repr

def CompressionLevel.isFastMethod : CompressionLevel → Bool
  | .Fastest | .Fast => true
  | _ => false

def CompressionLevel.zlibFlevel : CompressionLevel → Nat
  | .Fastest => 0
  | .Fast => 1
  | .Default => 2
  | .Best => 3

/-- `WindowSize::preferred(size).value()`. -/
def windowSizePreferred (size : Nat) : Nat :=
  if size ≤ 256 then 256
  else if size ≤ 512 then 512
  else if size ≤ 1024 then 1024
  else if size ≤ 2048 then 2048
  else if size ≤ 4096 then 4096
  else if size ≤ 8192 then 8192
  else if size ≤ 16384 then 16384
  else 32768

/-- `buff.chunks(MIN_BLOCK_SIZE)`. -/
def chunksOf (n : Nat) : Nat → List Nat → List (List Nat)
  | 0, _ => []
  | _, [] => []
  | fuel + 1, l => l.take n :: chunksOf n fuel (l.drop n)

/-- The zlib `cmf` byte (`((window_size.trailing_zeros() - 8) << 4) | 0x08`). -/
def zlibCmf (window : Nat) : Nat := ((trailingZeros window - 8) <<< 4) ||| 0x08

/-- The zlib `flg` byte: `flevel << 6` with the `fcheck` filler
`31 - (cmf * 256 + flg) % 31` OR-ed into the low five bits. -/
def zlibFlg (level : CompressionLevel) (window : Nat) : Nat :=
  let flg0 := level.zlibFlevel <<< 6
  flg0 ||| (31 - (zlibCmf window * 256 + flg0) % 31)

/-- The per-block body of `deflate`'s `for block in blocks` loop (`p` is the
enumerated block; the non-fast levels re-encode small-looking blocks both
ways and keep the shorter). -/
def deflateBlockStep (level : CompressionLevel) (estSmall : List Nat → Bool)
    (nBlocks : Nat) (w : BitStreamWriter) (p : Nat × List Nat) : BitStreamWriter :=
  let isFinal := p.1 = nBlocks - 1
  if ¬level.isFastMethod ∧ estSmall p.2 then
    let refStatic := blockEncode p.2 isFinal BitStreamWriter.new true
    let refDynamic := blockEncode p.2 isFinal BitStreamWriter.new false
    blockEncode p.2 isFinal w (decide (refStatic.bitCount < refDynamic.bitCount))
  else blockEncode p.2 isFinal w false

/-- `deflate`.  `Configuration::lzss_config` picks `search_attempts = 1` for
the fast levels (routing `encode_lcp` to `encode_fast`) and the defaulted 16
otherwise; the zero `cache_purge_limit` defaults to `16 * 1024 * 1024`.  The
`f64`-entropy test `estimated_size() < THRESHOLD_STATIC` of the non-fast
levels is abstracted as the boolean parameter `estSmall` of the block (the
stated properties hold for every choice of it). -/
def deflate (input : List Nat) (level : CompressionLevel) (isZlib : Bool)
    (estSmall : List Nat → Bool) : Except EncodeError (List Nat) :=
  let window := windowSizePreferred input.length
  let maxLen := min window 258
  let searchAttempts := if level.isFastMethod then 1 else 16
  match encodeLcp input window maxLen 1 searchAttempts (16 * 1024 * 1024) with
  | .error e => .error e
  | .ok toks =>
    let buff := toks.map lzirFromLzss
    let blocks := chunksOf (16 * 1024) (buff.length + 1) buff
    let w := BitStreamWriter.new
    let w :=
      if isZlib then (w.pushByte (zlibCmf window)).pushByte (zlibFlg level window)
      else w
    let w := blocks.enum.foldl (deflateBlockStep level estSmall blocks.length) w
    let w :=
      if isZlib then
        let a := adler32 input
        let w := w.skipToBoundary
        (((w.pushByte ((a >>> 24) % 256)).pushByte ((a >>> 16) % 256)).pushByte
          ((a >>> 8) % 256)).pushByte (a % 256)
      else w
    .ok w.intoBytes

end Compress

namespace Compress

/-- The slow tree walk (`decode_slow`'s loop) as a pure function of the
remaining bit stream, structural on the bits: `(symbol, bits consumed)` or
the `UnexpectedEof` the loop reports when the bits run out. -/
def CanonicalPrefixDecoder.slowSpec (tree : Array Nat) :
    Nat → List Bool → Except DecodeError (Nat × Nat)
  | _, [] => .error .UnexpectedEof
  | index, b :: rest =>
    let cell := tree.getD index 0
    let next := if b then cell >>> 16 else cell
    if next &&& 0x8000 = 0 then
      match slowSpec tree (next % 65536) rest with
      | .error e => .error e
      | .ok (v, j) => .ok (v, j + 1)
    else .ok (next &&& 0x7fff, 1)

/-- Consistency of one two-literal lookup entry with the canonical prefix
table `pt`: an occupied entry holds either a single code of the table (with
the entry's width and the code's reversed bits as the index's low bits) or
the concatenation of two literal codes. -/
def CanonicalPrefixDecoder.Entry2Ok (pt : List (Nat × VarBit)) (peek key : Nat) :
    LookupEntry2 → Prop
  | none => True
  | some (ll, n) =>
      1 ≤ n ∧ n ≤ peek ∧
      ((∃ sym path, (sym, path) ∈ pt ∧ path.size = n ∧
          key % 2 ^ n = path.reversed.value ∧ ll = LitLen2.fromLitLen sym) ∨
        (∃ s1 path1 s2 path2, (s1, path1) ∈ pt ∧ (s2, path2) ∈ pt ∧
          s1 < 256 ∧ s2 < 256 ∧ n = path1.size + path2.size ∧
          key % 2 ^ n = path1.reversed.value ||| (path2.reversed.value <<< path1.size) ∧
          ll = LitLen2.Double s1 s2))

/-- The decoder `with_lengths([1, 1], is_lzss_lit = true)` evaluates to
(recorded here as a named constant for reuse in concrete statements). -/
def decoderW : CanonicalPrefixDecoder :=
  ⟨#[], #[some (.Double 0 0, 2), some (.Double 1 0, 2), some (.Double 0 1, 2),
    some (.Double 1 1, 2)], #[2147581952], 2, 1, 1, 1⟩

end Compress

-- ===================== THEOREMS BELOW =====================

namespace Compress
namespace BitStreamReader

theorem natBits_length (n x : Nat) : (natBits n x).length = n := by
  simp [natBits]

theorem natBits_getElem (n x i : Nat) (h : i < n) :
    (natBits n x).get ⟨i, by simpa [natBits_length] using h⟩ = x.testBit i := by
  simp [natBits]

theorem bytesBits_length (s : List Nat) : (bytesBits s).length = 8 * s.length := by
  induction s with
  | nil => simp [bytesBits]
  | cons b t ih => simp [bytesBits, ih, natBits_length]; omega

theorem toBits_length (r : BitStreamReader) :
    (toBits r).length = r.left + 8 * r.slice.length := by
  simp [toBits, natBits_length, bytesBits_length]

theorem mask_eq (k : Nat) : mask k = 2 ^ k - 1 := by
  simp [mask, Nat.shiftLeft_eq]

theorem testBit_mask (k i : Nat) : (mask k).testBit i = decide (i < k) := by
  rw [mask_eq]
  exact Nat.testBit_two_pow_sub_one k i

theorem testBit_bitsToNat (l : List Bool) (i : Nat) :
    (bitsToNat l).testBit i = l.getD i false := by
  induction l generalizing i with
  | nil => simp [bitsToNat]
  | cons b t ih =>
    cases i with
    | zero =>
      cases b <;> simp [bitsToNat, Nat.testBit_zero] <;> omega
    | succ j =>
      have h2 : (cond b 1 0 + 2 * bitsToNat t) / 2 = bitsToNat t := by
        cases b <;> simp <;> omega
      simp [bitsToNat, Nat.testBit_succ, h2, ih]

end BitStreamReader
end Compress

namespace Compress
namespace BitStreamReader

theorem natBits_congr {n x y : Nat} (h : ∀ i, i < n → x.testBit i = y.testBit i) :
    natBits n x = natBits n y := by
  unfold natBits
  apply List.map_congr_left
  intro i hi
  exact h i (List.mem_range.mp hi)

theorem natBits_add (n m x : Nat) :
    natBits (n + m) x = natBits n x ++ natBits m (x >>> n) := by
  unfold natBits
  rw [List.range_add, List.map_append, List.map_map]
  congr 1
  apply List.map_congr_left
  intro i _
  simp [Nat.testBit_shiftRight]

theorem testBit_high_false {x n : Nat} (h : x < 2 ^ n) {i : Nat} (hi : n ≤ i) :
    x.testBit i = false := by
  apply Nat.testBit_lt_two_pow
  calc x < 2 ^ n := h
    _ ≤ 2 ^ i := Nat.pow_le_pow_right (by norm_num) hi

theorem refill_natBits {acc left b : Nat} (hacc : acc < 2 ^ left) (hleft : left ≤ 56)
    (hb : b < 256) :
    natBits (left + 8) ((acc ||| (b <<< left)) % 2 ^ 64) = natBits left acc ++ natBits 8 b := by
  rw [natBits_add]
  congr 1
  · apply natBits_congr
    intro i hi
    rw [Nat.testBit_mod_two_pow, Nat.testBit_lor, Nat.testBit_shiftLeft]
    have h1 : ¬ (left ≤ i) := by omega
    simp [h1, show i < 64 by omega]
  · apply natBits_congr
    intro i hi
    rw [Nat.testBit_shiftRight, Nat.testBit_mod_two_pow, Nat.testBit_lor,
      Nat.testBit_shiftLeft]
    have h1 : acc.testBit (left + i) = false := testBit_high_false hacc (by omega)
    simp [h1, show left + i < 64 by omega, show left ≤ left + i by omega]

theorem refill_acc_lt {acc left b : Nat} (hacc : acc < 2 ^ left) (hb : b < 256) :
    (acc ||| (b <<< left)) % 2 ^ 64 < 2 ^ (left + 8) := by
  have h1 : acc < 2 ^ (left + 8) :=
    Nat.lt_of_lt_of_le hacc (Nat.pow_le_pow_right (by norm_num) (by omega))
  have h2 : b <<< left < 2 ^ (left + 8) := by
    have h0 : b <<< left < 2 ^ (8 + left) := Nat.shiftLeft_lt (by simpa using hb)
    calc b <<< left < 2 ^ (8 + left) := h0
      _ = 2 ^ (left + 8) := by rw [Nat.add_comm]
  have h3 : acc ||| (b <<< left) < 2 ^ (left + 8) := Nat.bitwise_lt h1 h2
  exact Nat.lt_of_le_of_lt (Nat.mod_le _ _) h3

theorem refill_toBits {r : BitStreamReader} (hinv : Inv r) {b : Nat} {t : List Nat}
    (hslice : r.slice = b :: t) (hleft : r.left ≤ 56) :
    toBits ⟨(r.acc ||| (b <<< r.left)) % 2 ^ 64, r.left + 8, t⟩ = toBits r ∧
    Inv (⟨(r.acc ||| (b <<< r.left)) % 2 ^ 64, r.left + 8, t⟩ : BitStreamReader) := by
  obtain ⟨hacc, hl64, hbytes⟩ := hinv
  have hb : b < 256 := hbytes b (by rw [hslice]; exact List.mem_cons_self _ _)
  constructor
  · show natBits (r.left + 8) _ ++ bytesBits t = _
    rw [refill_natBits hacc hleft hb]
    unfold toBits
    rw [hslice]
    show (natBits r.left r.acc ++ natBits 8 b) ++ bytesBits t =
      natBits r.left r.acc ++ (natBits 8 b ++ bytesBits t)
    rw [List.append_assoc]
  · refine ⟨refill_acc_lt hacc hb, by show r.left + 8 ≤ 64; omega, ?_⟩
    intro x hx
    exact hbytes x (by rw [hslice]; exact List.mem_cons_of_mem _ hx)

theorem advanceFast_toBits {r : BitStreamReader} (hinv : Inv r) {bits : Nat}
    (h : bits ≤ r.left) :
    toBits (advanceFast bits r) = (toBits r).drop bits ∧ Inv (advanceFast bits r) := by
  obtain ⟨hacc, hl64, hbytes⟩ := hinv
  have hsplit : natBits r.left r.acc =
      natBits bits r.acc ++ natBits (r.left - bits) (r.acc >>> bits) := by
    have hsum : r.left = bits + (r.left - bits) := by omega
    conv_lhs => rw [hsum]
    rw [natBits_add]
  constructor
  · show natBits (r.left - bits) (r.acc >>> bits) ++ bytesBits r.slice = _
    unfold toBits
    rw [hsplit, List.append_assoc,
      List.drop_append_of_le_length (by simp [natBits_length]),
      List.drop_eq_nil_of_le (by simp [natBits_length]), List.nil_append]
  · refine ⟨?_, by show r.left - bits ≤ 64; omega, hbytes⟩
    show r.acc >>> bits < 2 ^ (r.left - bits)
    rw [Nat.shiftRight_eq_div_pow]
    apply Nat.div_lt_of_lt_mul
    calc r.acc < 2 ^ r.left := hacc
      _ = 2 ^ bits * 2 ^ (r.left - bits) := by rw [← pow_add]; congr 1; omega

/-- The masked accumulator value equals the numeric value of the first
`k` stream bits, whenever `k` bits are buffered. -/
theorem and_mask_eq_streamVal {r : BitStreamReader} {k : Nat} (hk : k ≤ r.left) :
    r.acc &&& mask k = bitsToNat ((toBits r).take k) := by
  apply Nat.eq_of_testBit_eq
  intro i
  rw [Nat.testBit_land, testBit_mask, testBit_bitsToNat]
  by_cases hik : i < k
  · have hlen : i < (toBits r).length := by
      rw [toBits_length]; omega
    rw [List.getD_eq_getElem?_getD, List.getElem?_take, if_pos hik,
      List.getElem?_eq_getElem hlen]
    have : (toBits r)[i] = r.acc.testBit i := by
      show (natBits r.left r.acc ++ bytesBits r.slice)[i] = _
      rw [List.getElem_append_left (by simp [natBits_length]; omega)]
      exact natBits_getElem _ _ _ (by omega)
    simp [this, hik]
  · rw [List.getD_eq_getElem?_getD, List.getElem?_take, if_neg hik]
    simp [hik]

theorem toBits_length_ge_left (r : BitStreamReader) : r.left ≤ (toBits r).length := by
  rw [toBits_length]; omega

theorem peekLoop_spec (k : Nat) (hk24 : k ≤ 24) :
    ∀ fuel (r : BitStreamReader), Inv r → 64 ≤ r.left + 8 * fuel →
    toBits (peekLoop fuel k r).2 = toBits r ∧ Inv (peekLoop fuel k r).2 ∧
    ((peekLoop fuel k r).1 = if k ≤ (toBits r).length then
        some (bitsToNat ((toBits r).take k)) else none) ∧
    (∀ v, (peekLoop fuel k r).1 = some v → k ≤ (peekLoop fuel k r).2.left) := by
  intro fuel
  induction fuel with
  | zero =>
    intro r hinv hbound
    have hkl : k ≤ r.left := by omega
    refine ⟨rfl, hinv, ?_, fun v _ => hkl⟩
    rw [if_pos (Nat.le_trans hkl (toBits_length_ge_left r))]
    simp [peekLoop, and_mask_eq_streamVal hkl]
  | succ fuel ih =>
    intro r hinv hbound
    by_cases hguard : r.left ≤ 64 - 8
    · rcases hs : r.slice with _ | ⟨b, t⟩
      · have hlen : (toBits r).length = r.left := by
          rw [toBits_length, hs]; simp
        have hred : peekLoop (fuel + 1) k r =
            ((if k ≤ r.left then some (r.acc &&& mask k) else none), r) := by
          simp only [peekLoop, hs, if_pos hguard]
        rw [hred]
        refine ⟨rfl, hinv, ?_, ?_⟩
        · rw [hlen]
          by_cases hkl : k ≤ r.left
          · rw [if_pos hkl, if_pos hkl, and_mask_eq_streamVal hkl]
          · rw [if_neg hkl, if_neg hkl]
        · intro v hv
          by_cases hkl : k ≤ r.left
          · exact hkl
          · rw [if_neg hkl] at hv
            cases hv
      · have hred : peekLoop (fuel + 1) k r =
            peekLoop fuel k ⟨(r.acc ||| (b <<< r.left)) % 2 ^ 64, r.left + 8, t⟩ := by
          simp only [peekLoop, hs, if_pos hguard]
        obtain ⟨htb, hinv2⟩ := refill_toBits hinv hs (by omega)
        have hrec := ih ⟨(r.acc ||| (b <<< r.left)) % 2 ^ 64, r.left + 8, t⟩ hinv2
          (by show 64 ≤ r.left + 8 + 8 * fuel; omega)
        rw [htb] at hrec
        rw [hred]
        exact hrec
    · have hkl : k ≤ r.left := by omega
      have hred : peekLoop (fuel + 1) k r = (some (r.acc &&& mask k), r) := by
        simp only [peekLoop, if_neg hguard]
      rw [hred]
      refine ⟨rfl, hinv, ?_, fun v _ => hkl⟩
      rw [if_pos (Nat.le_trans hkl (toBits_length_ge_left r)), and_mask_eq_streamVal hkl]

theorem readFill_spec (k : Nat) (hk24 : k ≤ 24) :
    ∀ fuel (r : BitStreamReader), Inv r → k ≤ 8 * fuel + r.left →
    (readFill fuel k r = none → (toBits r).length < k) ∧
    (∀ r₁, readFill fuel k r = some r₁ →
      toBits r₁ = toBits r ∧ Inv r₁ ∧ k ≤ r₁.left) := by
  intro fuel
  induction fuel with
  | zero =>
    intro r hinv hbound
    have hkl : k ≤ r.left := by omega
    have hred : readFill 0 k r = some r := by
      simp only [readFill, if_neg (by omega : ¬ (r.left < k))]
    rw [hred]
    refine ⟨fun h => ?_, fun r₁ h => ?_⟩
    · cases h
    · cases h
      exact ⟨rfl, hinv, hkl⟩
  | succ fuel ih =>
    intro r hinv hbound
    by_cases hguard : r.left < k
    · rcases hs : r.slice with _ | ⟨b, t⟩
      · have hred : readFill (fuel + 1) k r = none := by
          simp only [readFill, hs, if_pos hguard]
        rw [hred]
        refine ⟨fun _ => ?_, fun r₁ h => ?_⟩
        · rw [toBits_length, hs]
          simp
          omega
        · cases h
      · have hred : readFill (fuel + 1) k r =
            readFill fuel k ⟨(r.acc ||| (b <<< r.left)) % 2 ^ 64, r.left + 8, t⟩ := by
          simp only [readFill, hs, if_pos hguard]
        obtain ⟨htb, hinv2⟩ := refill_toBits hinv hs (by omega)
        have hrec := ih ⟨(r.acc ||| (b <<< r.left)) % 2 ^ 64, r.left + 8, t⟩ hinv2
          (by show k ≤ 8 * fuel + (r.left + 8); omega)
        rw [htb] at hrec
        rw [hred]
        exact hrec
    · have hred : readFill (fuel + 1) k r = some r := by
        simp only [readFill, if_neg hguard]
      rw [hred]
      refine ⟨fun h => ?_, fun r₁ h => ?_⟩
      · cases h
      · cases h
        exact ⟨rfl, hinv, by omega⟩

theorem readBits_spec {r : BitStreamReader} (hinv : Inv r) {k : Nat}
    (hk1 : 1 ≤ k) (hk : k ≤ 24) :
    (readBits k r = none → (toBits r).length < k) ∧
    (∀ v r₂, readBits k r = some (v, r₂) →
      v = bitsToNat ((toBits r).take k) ∧ toBits r₂ = (toBits r).drop k ∧ Inv r₂) := by
  by_cases hkl : k ≤ r.left
  · have hred : readBits k r = some (r.acc &&& mask k, advanceFast k r) := by
      simp only [readBits, if_pos hkl]
    rw [hred]
    refine ⟨fun h => ?_, fun v r₂ h => ?_⟩
    · cases h
    · cases h
      obtain ⟨hd, hi⟩ := advanceFast_toBits hinv hkl
      exact ⟨and_mask_eq_streamVal hkl, hd, hi⟩
  · have hspec := readFill_spec k hk k r hinv (by omega)
    rcases hfill : readFill k k r with _ | r₁
    · have hred : readBits k r = none := by
        simp only [readBits, if_neg hkl, hfill]
      rw [hred]
      refine ⟨fun _ => hspec.1 hfill, fun v r₂ h => ?_⟩
      cases h
    · obtain ⟨htb, hinv1, hkl1⟩ := hspec.2 r₁ hfill
      have hred : readBits k r = some (r₁.acc &&& mask k, advanceFast k r₁) := by
        simp only [readBits, if_neg hkl, hfill]
      rw [hred]
      refine ⟨fun h => ?_, fun v r₂ h => ?_⟩
      · cases h
      · cases h
        obtain ⟨hd, hi⟩ := advanceFast_toBits hinv1 hkl1
        refine ⟨?_, ?_, hi⟩
        · rw [and_mask_eq_streamVal hkl1, htb]
        · rw [hd, htb]

theorem peekBits_spec {r : BitStreamReader} (hinv : Inv r) {k : Nat}
    (hk1 : 1 ≤ k) (hk : k ≤ 24) :
    toBits (peekBits k r).2 = toBits r ∧ Inv (peekBits k r).2 ∧
    ((peekBits k r).1 = if k ≤ (toBits r).length then
        some (bitsToNat ((toBits r).take k)) else none) ∧
    (∀ v, (peekBits k r).1 = some v → k ≤ (peekBits k r).2.left) := by
  by_cases hkl : k ≤ r.left
  · have hred : peekBits k r = (some (r.acc &&& mask k), r) := by
      simp only [peekBits, if_pos hkl]
    rw [hred]
    refine ⟨rfl, hinv, ?_, fun v _ => hkl⟩
    rw [if_pos (Nat.le_trans hkl (toBits_length_ge_left r)), and_mask_eq_streamVal hkl]
  · have hred : peekBits k r = peekLoop 8 k r := by
      simp only [peekBits, if_neg hkl]
    rw [hred]
    exact peekLoop_spec k hk 8 r hinv (by omega)

end BitStreamReader
end Compress

namespace Compress

/-- C8: for every reader state (satisfying the reader invariant) and every
bit width `k ∈ 1..=24`, `peek_bits(k)` followed by `advance(k)` returns the
same value and leaves the reader observationally in the same state (the same
remaining bit stream) as a single `read_bits(k)` on the original state, and
`peek_bits` returns `Some` iff at least `k` bits remain in the stream. -/
theorem C8_peek_advance_matches_readBits (r : BitStreamReader) (k : Nat)
    (hinv : BitStreamReader.Inv r) (hk1 : 1 ≤ k) (hk : k ≤ 24) :
    ((BitStreamReader.peekBits k r).1.isSome ↔
      k ≤ (BitStreamReader.toBits r).length) ∧
    (∀ v r₁, BitStreamReader.peekBits k r = (some v, r₁) →
      ∃ r₂ w r₃,
        BitStreamReader.advance k r₁ = some r₂ ∧
        BitStreamReader.readBits k r = some (w, r₃) ∧
        w = v ∧
        BitStreamReader.toBits r₂ = BitStreamReader.toBits r₃) := by
  obtain ⟨htb, hinv1, hval, hleft⟩ := BitStreamReader.peekBits_spec hinv hk1 hk
  constructor
  · rw [hval]
    by_cases hc : k ≤ (BitStreamReader.toBits r).length
    · simp [hc]
    · simp [hc]
  · intro v r₁ hpk
    have h1 : (BitStreamReader.peekBits k r).1 = some v := by rw [hpk]
    have h2 : (BitStreamReader.peekBits k r).2 = r₁ := by rw [hpk]
    have hkl1 : k ≤ r₁.left := by
      have := hleft v h1
      rw [h2] at this
      exact this
    have hlen : k ≤ (BitStreamReader.toBits r).length := by
      rw [hval] at h1
      by_cases hc : k ≤ (BitStreamReader.toBits r).length
      · exact hc
      · rw [if_neg hc] at h1
        cases h1
    have hv : v = BitStreamReader.bitsToNat ((BitStreamReader.toBits r).take k) := by
      rw [hval, if_pos hlen] at h1
      cases h1
      rfl
    have hadv : BitStreamReader.advance k r₁ =
        some (BitStreamReader.advanceFast k r₁) := by
      simp only [BitStreamReader.advance, if_pos hkl1]
    obtain ⟨hspec_none, hspec_some⟩ := BitStreamReader.readBits_spec hinv hk1 hk
    rcases hrd : BitStreamReader.readBits k r with _ | ⟨w, r₃⟩
    · exact absurd (hspec_none hrd) (by omega)
    · obtain ⟨hw, hd3, hinv3⟩ := hspec_some w r₃ hrd
      refine ⟨BitStreamReader.advanceFast k r₁, w, r₃, hadv, rfl, by rw [hw, hv], ?_⟩
      have hinv1' : BitStreamReader.Inv r₁ := by rw [← h2]; exact hinv1
      have htb1 : BitStreamReader.toBits r₁ = BitStreamReader.toBits r := by
        rw [← h2]; exact htb
      obtain ⟨hd2, _⟩ := BitStreamReader.advanceFast_toBits hinv1' hkl1
      rw [hd2, htb1, hd3]

/-- Witness for C8 at a concrete reader (`new [171]`) and width 3. -/
theorem C8_peek_advance_matches_readBits_witness :
    (BitStreamReader.Inv (BitStreamReader.new [171]) ∧ 1 ≤ 3 ∧ 3 ≤ 24) ∧
    (((BitStreamReader.peekBits 3 (BitStreamReader.new [171])).1.isSome ↔
      3 ≤ (BitStreamReader.toBits (BitStreamReader.new [171])).length) ∧
    (∀ v r₁, BitStreamReader.peekBits 3 (BitStreamReader.new [171]) = (some v, r₁) →
      ∃ r₂ w r₃,
        BitStreamReader.advance 3 r₁ = some r₂ ∧
        BitStreamReader.readBits 3 (BitStreamReader.new [171]) = some (w, r₃) ∧
        w = v ∧
        BitStreamReader.toBits r₂ = BitStreamReader.toBits r₃)) :=
  ⟨⟨⟨by decide, by decide, by decide⟩, by decide, by decide⟩,
    C8_peek_advance_matches_readBits (BitStreamReader.new [171]) 3
      ⟨by decide, by decide, by decide⟩ (by decide) (by decide)⟩

end Compress

namespace Compress
namespace LzOutputBuffer

theorem getD_set_preserve {l : List Nat} {m i : Nat} {a : Nat} (h : m ≠ i) :
    (l.set m a).getD i 0 = l.getD i 0 := by
  rw [List.getD_eq_getElem?_getD, List.getD_eq_getElem?_getD, List.getElem?_set_ne h]

theorem pushLiteral_len (b : LzOutputBuffer) (lit : Nat) :
    ((b.pushLiteral lit).1).buffer.length = b.buffer.length := by
  unfold pushLiteral
  split <;> simp

theorem pushLiteral_tail {b : LzOutputBuffer} (h : TailZeros b) (lit : Nat) :
    TailZeros (b.pushLiteral lit).1 := by
  obtain ⟨hle, hz⟩ := h
  unfold pushLiteral
  split
  · refine ⟨by simpa using ‹b.position < b.buffer.length›, ?_⟩
    intro i hi
    have hi2 : b.position + 1 ≤ i := by simpa using hi
    show (b.buffer.set b.position lit).getD i 0 = 0
    rw [getD_set_preserve (by omega)]
    exact hz i (by omega)
  · exact ⟨hle, hz⟩

theorem pushLiteral_pos (b : LzOutputBuffer) (lit : Nat) :
    b.position ≤ ((b.pushLiteral lit).1).position := by
  unfold pushLiteral
  split <;> simp

theorem extendFromSlice_ok {b : LzOutputBuffer} {data : List Nat}
    {b₁ : LzOutputBuffer} (h : b.extendFromSlice data = (b₁, true)) :
    b₁.buffer.length = b.buffer.length ∧ (TailZeros b → TailZeros b₁) := by
  unfold extendFromSlice at h
  split at h
  · cases h
    rename_i hfit
    constructor
    · simp
      omega
    · rintro ⟨hle, hz⟩
      refine ⟨by simp; omega, ?_⟩
      intro i hi
      simp only at hi ⊢
      have hlen1 : (b.buffer.take b.position).length = b.position :=
        List.length_take_of_le (by omega)
      rw [List.getD_eq_getElem?_getD,
        List.getElem?_append_right (by simp [hlen1]; omega), List.getElem?_drop]
      have hidx := hz
        (b.position + data.length + (i - (b.buffer.take b.position ++ data).length))
        (by omega)
      rw [List.getD_eq_getElem?_getD] at hidx
      exact hidx
  · cases h

theorem fillBytes_preserve {value : Nat} :
    ∀ count (b : LzOutputBuffer), count + b.position ≤ b.buffer.length → TailZeros b →
      ((fillBytes value count b).buffer.length = b.buffer.length ∧
        TailZeros (fillBytes value count b) ∧
        (fillBytes value count b).position = b.position + count) := by
  intro count
  induction count with
  | zero => intro b hle hz; exact ⟨rfl, hz, by simp [fillBytes]⟩
  | succ k ih =>
    intro b hle hz
    obtain ⟨hb, hzz⟩ := hz
    have hstep : TailZeros ⟨b.buffer.set b.position value, b.position + 1⟩ := by
      refine ⟨by simp; omega, ?_⟩
      intro i hi
      show (b.buffer.set b.position value).getD i 0 = 0
      rw [getD_set_preserve (by simp at hi; omega)]
      exact hzz i (by simp at hi; omega)
    have := ih ⟨b.buffer.set b.position value, b.position + 1⟩ (by simp; omega) hstep
    unfold fillBytes
    refine ⟨by rw [this.1]; simp, this.2.1, by rw [this.2.2]; simp; omega⟩

theorem copyBytes_preserve {distance : Nat} :
    ∀ count (b : LzOutputBuffer), count + b.position ≤ b.buffer.length → TailZeros b →
      ((copyBytes distance count b).buffer.length = b.buffer.length ∧
        TailZeros (copyBytes distance count b) ∧
        (copyBytes distance count b).position = b.position + count) := by
  intro count
  induction count with
  | zero => intro b hle hz; exact ⟨rfl, hz, by simp [copyBytes]⟩
  | succ k ih =>
    intro b hle hz
    obtain ⟨hb, hzz⟩ := hz
    set v := b.buffer.getD (b.position - distance) 0 with hv
    have hstep : TailZeros ⟨b.buffer.set b.position v, b.position + 1⟩ := by
      refine ⟨by simp; omega, ?_⟩
      intro i hi
      show (b.buffer.set b.position v).getD i 0 = 0
      rw [getD_set_preserve (by simp at hi; omega)]
      exact hzz i (by simp at hi; omega)
    have := ih ⟨b.buffer.set b.position v, b.position + 1⟩ (by simp; omega) hstep
    unfold copyBytes
    refine ⟨by rw [this.1]; simp, this.2.1, by rw [this.2.2]; simp; omega⟩

theorem copyLz_preserve {b : LzOutputBuffer} {distance copyLen : Nat}
    {b₁ : LzOutputBuffer} (h : b.copyLz distance copyLen = some b₁)
    (hz : TailZeros b) :
    b₁.buffer.length = b.buffer.length ∧ TailZeros b₁ := by
  unfold copyLz at h
  split at h
  · cases h
  · split at h <;> cases h
    · have := @fillBytes_preserve (b.buffer.getD (b.position - 1) 0)
        (min copyLen (b.buffer.length - b.position)) b (by have := hz.1; omega) hz
      exact ⟨this.1, this.2.1⟩
    · have := @copyBytes_preserve distance
        (min copyLen (b.buffer.length - b.position)) b (by have := hz.1; omega) hz
      exact ⟨this.1, this.2.1⟩

end LzOutputBuffer
end Compress

namespace Compress

/-- Shorthand: an `Except` result is not the `InvalidInput` error. -/
def NotII {α : Type} : Except DecodeError α → Prop
  | .error .InvalidInput => False
  | _ => True

theorem notII_of_ne {α : Type} {x : Except DecodeError α}
    (h : x ≠ .error .InvalidInput) : NotII x := by
  cases x with
  | ok v => trivial
  | error e => cases e <;> first | trivial | exact absurd rfl h

theorem canonStep_notII (hd : Nat × Nat) (tl : List (Nat × Nat)) (acc lastBits : Nat)
    (ih : ∀ acc lastBits, CanonicalPrefixDecoder.reorderLoop tl acc lastBits ≠
      .error .InvalidInput) :
    CanonicalPrefixDecoder.reorderLoop (hd :: tl) acc lastBits ≠
      .error .InvalidInput := by
  unfold CanonicalPrefixDecoder.reorderLoop
  set acc2 := CanonicalPrefixDecoder.canonShift lastBits hd.2 hd.2 acc with hacc2
  by_cases hguard : hd.2 = 0 ∨ 24 < hd.2
  · rw [if_pos hguard]
    intro h; cases h
  · rw [if_neg hguard]
    rcases hnc : VarBit.newChecked hd.2 acc2 with _ | vb
    · simp only [hnc]
      intro h; cases h
    · simp only [hnc]
      rcases hrec : CanonicalPrefixDecoder.reorderLoop tl (acc2 + 1) hd.2 with e | tl2
      · simp only [hrec]
        intro h
        cases h
        exact ih _ _ hrec
      · simp only [hrec]
        intro h; cases h

theorem reorderLoop_notII (l : List (Nat × Nat)) :
    ∀ acc lastBits, CanonicalPrefixDecoder.reorderLoop l acc lastBits ≠
      .error .InvalidInput := by
  induction l with
  | nil => intro acc lastBits h; cases h
  | cons hd tl ih => intro acc lastBits; exact canonStep_notII hd tl acc lastBits ih

theorem reorderPrefixTable_notII (l : List (Nat × Nat)) :
    CanonicalPrefixDecoder.reorderPrefixTable l ≠ .error .InvalidInput :=
  reorderLoop_notII _ _ _

theorem insertStep_notII (tree : Array Nat) (index rpath : Nat) :
    CanonicalPrefixDecoder.insertStep tree index rpath ≠ .error .InvalidInput := by
  intro h
  unfold CanonicalPrefixDecoder.insertStep at h
  simp only [] at h
  split_ifs at h <;> cases h

theorem insertWalk_notII :
    ∀ steps tree index rpath, CanonicalPrefixDecoder.insertWalk steps tree index rpath ≠
      .error .InvalidInput := by
  intro steps
  induction steps with
  | zero => intro tree index rpath h; cases h
  | succ n ih =>
    intro tree index rpath h
    unfold CanonicalPrefixDecoder.insertWalk at h
    split at h
    · rename_i e heq
      cases h
      exact insertStep_notII tree index rpath heq
    · exact ih _ _ _ h

theorem insertNode_notII (tree : Array Nat) (path : VarBit) (value : Nat) :
    CanonicalPrefixDecoder.insertNode tree path value ≠ .error .InvalidInput := by
  intro h
  unfold CanonicalPrefixDecoder.insertNode at h
  simp only [] at h
  split at h
  · rename_i e heq
    cases h
    exact insertWalk_notII _ _ _ _ heq
  · split at h <;> cases h

theorem exceptErrorBind {α β : Type} (e : DecodeError) (k : α → Except DecodeError β) :
    (Except.error e >>= k) = Except.error e := rfl

theorem exceptOkBind {α β : Type} (a : α) (k : α → Except DecodeError β) :
    (Except.ok a >>= k) = k a := rfl

theorem insertFold_notII (l : List (Nat × VarBit)) :
    ∀ tree, l.foldlM (fun tr (sv : Nat × VarBit) =>
        CanonicalPrefixDecoder.insertNode tr sv.2 sv.1) tree ≠
      (.error .InvalidInput : Except DecodeError (Array Nat)) := by
  induction l with
  | nil => intro tree h; cases h
  | cons hd tl ih =>
    intro tree h
    rcases hins : CanonicalPrefixDecoder.insertNode tree hd.2 hd.1 with e | tr
    · rw [List.foldlM_cons, hins, exceptErrorBind] at h
      cases h
      exact insertNode_notII tree hd.2 hd.1 hins
    · rw [List.foldlM_cons, hins, exceptOkBind] at h
      exact ih tr h

theorem withLengths_notII (lengths : List Nat) (isLzssLit : Bool) :
    CanonicalPrefixDecoder.withLengths lengths isLzssLit ≠ .error .InvalidInput := by
  intro h
  unfold CanonicalPrefixDecoder.withLengths at h
  split at h
  · rename_i e heq
    cases h
    exact reorderPrefixTable_notII _ heq
  · rename_i pt heq
    split at h
    · cases h
    · split at h
      · rcases hfold : List.foldlM (fun tr (sv : Nat × VarBit) =>
            CanonicalPrefixDecoder.insertNode tr sv.2 sv.1) #[0] pt with e | tree
        · rw [hfold] at h
          cases h
          exact insertFold_notII _ _ hfold
        · rw [hfold] at h
          split at h <;> cases h
      · cases h

theorem decodeSlowLoop_notII :
    ∀ fuel tree index r res,
      CanonicalPrefixDecoder.decodeSlowLoop fuel tree index r = some res → NotII res := by
  intro fuel
  induction fuel with
  | zero => intro tree index r res h; cases h
  | succ n ih =>
    intro tree index r res h
    unfold CanonicalPrefixDecoder.decodeSlowLoop at h
    split at h
    · cases h; trivial
    · simp only [] at h
      split_ifs at h
      all_goals first
        | (cases h; trivial)
        | exact ih _ _ _ _ h

theorem decodeSlow_notII (d : CanonicalPrefixDecoder) (r : BitStreamReader) {res}
    (h : CanonicalPrefixDecoder.decodeSlow d r = some res) : NotII res :=
  decodeSlowLoop_notII _ _ _ _ _ h

theorem decode_notII (d : CanonicalPrefixDecoder) (r : BitStreamReader) {res}
    (h : CanonicalPrefixDecoder.decode d r = some res) : NotII res := by
  unfold CanonicalPrefixDecoder.decode at h
  split at h
  · split at h
    · cases h; trivial
    · split at h
      · cases h; trivial
      · exact decodeSlow_notII _ _ h
  · exact decodeSlow_notII _ _ h

theorem decode2Slow_notII (d : CanonicalPrefixDecoder) (r : BitStreamReader) {res}
    (h : CanonicalPrefixDecoder.decode2Slow d r = some res) : NotII res := by
  unfold CanonicalPrefixDecoder.decode2Slow at h
  split at h
  · cases h
  · rename_i e heq
    cases h
    have := decodeSlow_notII _ _ heq
    cases e <;> first | trivial | cases this
  · cases h; trivial

theorem decode2_notII (d : CanonicalPrefixDecoder) (r : BitStreamReader) {res}
    (h : CanonicalPrefixDecoder.decode2 d r = some res) : NotII res := by
  unfold CanonicalPrefixDecoder.decode2 at h
  split at h
  · split at h
    · cases h; trivial
    · split at h
      · cases h; trivial
      · exact decode2Slow_notII _ _ h
  · exact decode2Slow_notII _ _ h

end Compress

namespace Compress

theorem notII_error {α β : Type} {e : DecodeError}
    (h : NotII (Except.error e : Except DecodeError α)) :
    NotII (Except.error e : Except DecodeError β) := by
  cases e <;> first | trivial | cases h

theorem dptHeader_notII (l : List Nat) :
    ∀ lengths r, CanonicalPrefixDecoder.dptHeader l lengths r ≠ .error .InvalidInput := by
  induction l with
  | nil => intro lengths r h; cases h
  | cons hd tl ih =>
    intro lengths r h
    unfold CanonicalPrefixDecoder.dptHeader at h
    split at h
    · cases h
    · exact ih _ _ h

theorem dptLoop_notII :
    ∀ fuel dec r output prev outputSize res,
      CanonicalPrefixDecoder.dptLoop fuel dec r output prev outputSize = some res →
      NotII res := by
  intro fuel
  induction fuel with
  | zero => intro dec r output prev outputSize res h; cases h
  | succ n ih =>
    intro dec r output prev outputSize res h
    unfold CanonicalPrefixDecoder.dptLoop at h
    split at h
    · split at h
      · cases h
      · rename_i heq
        cases h
        exact notII_error (decode_notII _ _ heq)
      · simp only [] at h
        split_ifs at h
        · exact ih _ _ _ _ _ _ h
        · split at h
          · cases h; trivial
          · exact ih _ _ _ _ _ _ h
        · split at h
          · cases h; trivial
          · exact ih _ _ _ _ _ _ h
        · split at h
          · cases h; trivial
          · exact ih _ _ _ _ _ _ h
        · cases h; trivial
    · cases h; trivial

theorem dptLoop_ok_length :
    ∀ fuel dec r output prev outputSize out₁ r₁,
      CanonicalPrefixDecoder.dptLoop fuel dec r output prev outputSize =
        some (.ok (out₁, r₁)) →
      outputSize ≤ out₁.length := by
  intro fuel
  induction fuel with
  | zero => intro dec r output prev outputSize out₁ r₁ h; cases h
  | succ n ih =>
    intro dec r output prev outputSize out₁ r₁ h
    unfold CanonicalPrefixDecoder.dptLoop at h
    split at h
    · split at h
      · cases h
      · cases h
      · simp only [] at h
        split_ifs at h
        · exact ih _ _ _ _ _ _ _ h
        · split at h
          · cases h
          · exact ih _ _ _ _ _ _ _ h
        · split at h
          · cases h
          · exact ih _ _ _ _ _ _ _ h
        · split at h
          · cases h
          · exact ih _ _ _ _ _ _ _ h
        · cases h
    · rename_i hge
      cases h
      omega

theorem decodePrefixTableDeflate_notII (r : BitStreamReader) (output : List Nat)
    (outputSize : Nat) {res}
    (h : CanonicalPrefixDecoder.decodePrefixTableDeflate r output outputSize = some res) :
    NotII res := by
  unfold CanonicalPrefixDecoder.decodePrefixTableDeflate at h
  split at h
  · cases h; trivial
  · simp only [] at h
    split at h
    · rename_i e heq
      cases h
      cases e <;> first | trivial | exact absurd heq (dptHeader_notII _ _ _)
    · split at h
      · rename_i e heq
        cases h
        cases e <;> first | trivial | exact absurd heq (withLengths_notII _ _)
      · exact dptLoop_notII _ _ _ _ _ _ _ h

theorem decodeBlockLoop2_notII :
    ∀ fuel dlit ddist r out res,
      decodeBlockLoop2 fuel dlit ddist r out = some res → NotII res := by
  intro fuel
  induction fuel with
  | zero => intro dlit ddist r out res h; cases h
  | succ n ih =>
    intro dlit ddist r out res h
    unfold decodeBlockLoop2 at h
    split at h
    · cases h; trivial
    · split at h
      · cases h
      · rename_i heq
        cases h
        exact notII_error (decode2_notII _ _ heq)
      · split at h
        · exact ih _ _ _ _ _ h
        · exact ih _ _ _ _ _ h
        · split at h
          · cases h; trivial
          · split at h
            · cases h
            · rename_i heq
              cases h
              exact notII_error (decode_notII _ _ heq)
            · split at h
              · cases h; trivial
              · split at h
                · cases h; trivial
                · exact ih _ _ _ _ _ h
        · cases h; trivial

theorem decodeBlockLoop1_notII :
    ∀ fuel dlit r out res,
      decodeBlockLoop1 fuel dlit r out = some res → NotII res := by
  intro fuel
  induction fuel with
  | zero => intro dlit r out res h; cases h
  | succ n ih =>
    intro dlit r out res h
    unfold decodeBlockLoop1 at h
    split at h
    · cases h; trivial
    · split at h
      · cases h
      · rename_i heq
        cases h
        exact notII_error (decode_notII _ _ heq)
      · split_ifs at h
        · exact ih _ _ _ _ h
        · cases h; trivial
        · exact ih _ _ _ _ h

theorem decodeBlockFn_notII (r : BitStreamReader) (out : LzOutputBuffer)
    (lengthsLit lengthsDist : List Nat) {res}
    (h : decodeBlockFn r out lengthsLit lengthsDist = some res) : NotII res := by
  unfold decodeBlockFn at h
  split at h
  · split at h
    · rename_i e heq
      cases h
      cases e <;> first | trivial | exact absurd heq (withLengths_notII _ _)
    · split at h
      · rename_i e heq
        cases h
        cases e <;> first | trivial | exact absurd heq (withLengths_notII _ _)
      · exact decodeBlockLoop2_notII _ _ _ _ _ _ h
  · split at h
    · rename_i e heq
      cases h
      cases e <;> first | trivial | exact absurd heq (withLengths_notII _ _)
    · exact decodeBlockLoop1_notII _ _ _ _ _ h


theorem inflateStep_notII (btype : Nat) (r : BitStreamReader) (out : LzOutputBuffer)
    {res} (h : inflateStep btype r out = some res) : NotII res := by
  unfold inflateStep at h
  split_ifs at h
  · -- btype = 0 (stored block)
    split at h
    · cases h; trivial
    · simp only [] at h
      split at h
      · cases h; trivial
      · split_ifs at h
        · cases h; trivial
        · split at h
          · cases h; trivial
          · split at h
            · cases h; trivial
            · cases h; trivial
  · exact decodeBlockFn_notII _ _ _ _ h
  · -- btype = 2 (dynamic block)
    split at h
    · cases h; trivial
    · simp only [] at h
      split at h
      · cases h; trivial
      · split at h
        · cases h
        · rename_i heq
          cases h
          exact notII_error (decodePrefixTableDeflate_notII _ _ _ heq)
        · exact decodeBlockFn_notII _ _ _ _ h
  · cases h; trivial

theorem inflateLoop_notII :
    ∀ fuel r out res, inflateLoop fuel r out = some res → NotII res := by
  intro fuel
  induction fuel with
  | zero => intro r out res h; cases h
  | succ n ih =>
    intro r out res h
    unfold inflateLoop at h
    split at h
    · cases h; trivial
    · split at h
      · cases h; trivial
      · split at h
        · cases h; trivial
        · split at h
          · cases h
          · rename_i heq
            cases h
            exact notII_error (inflateStep_notII _ _ _ heq)
          · rename_i heq
            split at h
            · cases h
              have := inflateStep_notII _ _ _ heq
              exact this
            · exact ih _ _ _ h

theorem inflateInPlace_notII (input : List Nat) (output : LzOutputBuffer) {res}
    (h : inflateInPlace input output = some res) : NotII res := by
  unfold inflateInPlace at h
  split at h
  · cases h; trivial
  · simp only [] at h
    split at h
    · rename_i e heq
      cases h
      cases e <;> try trivial
      exfalso
      split_ifs at heq
      · split at heq
        · exact absurd heq (by decide)
        · split_ifs at heq <;> exact absurd heq (by decide)
    · exact inflateLoop_notII _ _ _ _ h

theorem inflate_notII (input : List Nat) (decodeSize : Nat) {res}
    (h : inflate input decodeSize = some res) : NotII res := by
  unfold inflate at h
  split at h
  · cases h
  · rename_i heq
    cases h
    exact notII_error (inflateInPlace_notII _ _ heq)
  · cases h; trivial


theorem decodeBlockLoop2_preserve :
    ∀ fuel dlit ddist r out r₁ out₁,
      decodeBlockLoop2 fuel dlit ddist r out = some (.ok (r₁, out₁)) →
      TailZeros out →
      out₁.buffer.length = out.buffer.length ∧ TailZeros out₁ := by
  intro fuel
  induction fuel with
  | zero => intro _ _ _ _ _ _ h _; cases h
  | succ n ih =>
    intro dlit ddist r out r₁ out₁ h hz
    unfold decodeBlockLoop2 at h
    split at h
    · cases h; exact ⟨rfl, hz⟩
    · split at h
      · cases h
      · cases h
      · split at h
        · have := ih _ _ _ _ _ _ h (LzOutputBuffer.pushLiteral_tail hz _)
          rw [LzOutputBuffer.pushLiteral_len] at this
          exact this
        · have := ih _ _ _ _ _ _ h
            (LzOutputBuffer.pushLiteral_tail (LzOutputBuffer.pushLiteral_tail hz _) _)
          rw [LzOutputBuffer.pushLiteral_len, LzOutputBuffer.pushLiteral_len] at this
          exact this
        · split at h
          · cases h
          · split at h
            · cases h
            · cases h
            · split at h
              · cases h
              · split at h
                · cases h
                · rename_i hcopy
                  have hc := LzOutputBuffer.copyLz_preserve hcopy hz
                  have := ih _ _ _ _ _ _ h hc.2
                  exact ⟨this.1.trans hc.1, this.2⟩
        · cases h; exact ⟨rfl, hz⟩

theorem decodeBlockLoop1_preserve :
    ∀ fuel dlit r out r₁ out₁,
      decodeBlockLoop1 fuel dlit r out = some (.ok (r₁, out₁)) →
      TailZeros out →
      out₁.buffer.length = out.buffer.length ∧ TailZeros out₁ := by
  intro fuel
  induction fuel with
  | zero => intro _ _ _ _ _ h _; cases h
  | succ n ih =>
    intro dlit r out r₁ out₁ h hz
    unfold decodeBlockLoop1 at h
    split at h
    · cases h; exact ⟨rfl, hz⟩
    · split at h
      · cases h
      · cases h
      · split_ifs at h
        · have := ih _ _ _ _ _ h (LzOutputBuffer.pushLiteral_tail hz _)
          rw [LzOutputBuffer.pushLiteral_len] at this
          exact this
        · cases h; exact ⟨rfl, hz⟩
        · exact ih _ _ _ _ _ h hz

theorem decodeBlockFn_preserve {r : BitStreamReader} {out : LzOutputBuffer}
    {lengthsLit lengthsDist : List Nat} {r₁ out₁}
    (h : decodeBlockFn r out lengthsLit lengthsDist = some (.ok (r₁, out₁)))
    (hz : TailZeros out) :
    out₁.buffer.length = out.buffer.length ∧ TailZeros out₁ := by
  unfold decodeBlockFn at h
  split at h
  · split at h
    · cases h
    · split at h
      · cases h
      · exact decodeBlockLoop2_preserve _ _ _ _ _ _ _ h hz
  · split at h
    · cases h
    · exact decodeBlockLoop1_preserve _ _ _ _ _ _ h hz

theorem inflateStep_preserve {btype : Nat} {r : BitStreamReader} {out : LzOutputBuffer}
    {r₁ out₁} (h : inflateStep btype r out = some (.ok (r₁, out₁)))
    (hz : TailZeros out) :
    out₁.buffer.length = out.buffer.length ∧ TailZeros out₁ := by
  unfold inflateStep at h
  split_ifs at h
  · -- stored block
    split at h
    · cases h
    · simp only [] at h
      split at h
      · cases h
      · split_ifs at h
        · cases h
        · split at h
          · cases h
          · split at h
            · cases h
            · rename_i hext
              cases h
              have := LzOutputBuffer.extendFromSlice_ok hext
              exact ⟨this.1, this.2 hz⟩
  · exact decodeBlockFn_preserve h hz
  · split at h
    · cases h
    · simp only [] at h
      split at h
      · cases h
      · split at h
        · cases h
        · cases h
        · exact decodeBlockFn_preserve h hz
  · cases h

theorem inflateLoop_preserve :
    ∀ fuel r out out₁,
      inflateLoop fuel r out = some (.ok out₁) → TailZeros out →
      out₁.buffer.length = out.buffer.length ∧ TailZeros out₁ := by
  intro fuel
  induction fuel with
  | zero => intro _ _ _ h _; cases h
  | succ n ih =>
    intro r out out₁ h hz
    unfold inflateLoop at h
    split at h
    · cases h; exact ⟨rfl, hz⟩
    · split at h
      · cases h
      · split at h
        · cases h
        · split at h
          · cases h
          · cases h
          · rename_i hstep
            split at h
            · cases h
              exact inflateStep_preserve hstep hz
            · have hs := inflateStep_preserve hstep hz
              have := ih _ _ _ h hs.2
              exact ⟨this.1.trans hs.1, this.2⟩

theorem inflateInPlace_preserve {input : List Nat} {output : LzOutputBuffer} {out₁}
    (h : inflateInPlace input output = some (.ok out₁)) (hz : TailZeros output) :
    out₁.buffer.length = output.buffer.length ∧ TailZeros out₁ := by
  unfold inflateInPlace at h
  split at h
  · cases h
  · simp only [] at h
    split at h
    · cases h
    · exact inflateLoop_preserve _ _ _ _ h hz

theorem mkNew_replicate_tailZeros (n : Nat) :
    TailZeros (LzOutputBuffer.mkNew (List.replicate n 0)) := by
  refine ⟨by simp [LzOutputBuffer.mkNew], ?_⟩
  intro i _
  show (List.replicate n 0).getD i 0 = 0
  rw [List.getD_eq_getElem?_getD, List.getElem?_replicate]
  split <;> rfl


/-- C2 (corrected): when the DEFLATE stream would produce more output than the
declared size, the decoder never returns `InvalidInput` (no code path of
`inflate` produces that error at all): an overflowing stored block fails the
`extend_from_slice` bounds check and yields `InvalidData`, while an
overflowing Huffman block is silently truncated by `copy_lz`'s clamp and the
ignored `push_literal` results, so decoding succeeds with the buffer's
declared length. -/
theorem C2_output_overflow_never_InvalidInput (input : List Nat) (decodeSize : Nat)
    (res : Except DecodeError (List Nat)) (h : inflate input decodeSize = some res) :
    res ≠ .error .InvalidInput := by
  intro hc
  subst hc
  exact inflate_notII input decodeSize h

theorem C2_output_overflow_never_InvalidInput_witness :
    inflate [1, 3, 0, 252, 255, 170, 187, 204] 2 =
      some (.error .InvalidData) ∧
    (Except.error DecodeError.InvalidData : Except DecodeError (List Nat)) ≠
      .error .InvalidInput :=
  ⟨by decide,
    C2_output_overflow_never_InvalidInput [1, 3, 0, 252, 255, 170, 187, 204] 2
      (.error .InvalidData) (by decide)⟩

/-- C2 counterexample to the original claim: two streams whose payload exceeds
the declared output size 2, and neither decode returns `InvalidInput`.  The
first is a stored block carrying 3 bytes (`LEN = 3`): it errors with
`InvalidData`.  The second is a dynamic-Huffman block encoding three `A`
bytes: it succeeds, returning the output truncated to 2 bytes. -/
theorem C2_counterexample :
    inflate [1, 3, 0, 252, 255, 170, 187, 204] 2 = some (.error .InvalidData) ∧
    inflate [5, 193, 129, 0, 0, 0, 0, 0, 144, 54, 255, 83, 64] 2 =
      some (.ok [65, 65]) := by
  exact ⟨by decide, by decide⟩

/-- C4 (corrected): when the meta-Huffman code-length decoder returns `Ok` the
emitted list has at least `output_size` entries, but an RLE escape that
overshoots `output_size` is NOT rejected: the loop only tests
`output.len() < output_size` before each symbol, so a final repeat escape may
push the list strictly past the expected length and decoding still
succeeds (no `InvalidData` for the overshoot). -/
theorem C4_meta_rle_overshoot_accepted (r : BitStreamReader) (output : List Nat)
    (outputSize : Nat) (tbl : List Nat) (r₁ : BitStreamReader)
    (h : CanonicalPrefixDecoder.decodePrefixTableDeflate r output outputSize =
      some (.ok (tbl, r₁))) :
    outputSize ≤ tbl.length := by
  unfold CanonicalPrefixDecoder.decodePrefixTableDeflate at h
  split at h
  · cases h
  · simp only [] at h
    split at h
    · cases h
    · split at h
      · cases h
      · exact dptLoop_ok_length _ _ _ _ _ _ _ _ h

theorem C4_meta_rle_overshoot_accepted_witness :
    CanonicalPrefixDecoder.decodePrefixTableDeflate
        (BitStreamReader.new [128, 32, 1]) [] 2 =
      some (.ok ([0, 0, 0], ⟨0, 4, []⟩)) ∧
    2 ≤ [0, 0, 0].length :=
  ⟨by decide,
    C4_meta_rle_overshoot_accepted (BitStreamReader.new [128, 32, 1]) [] 2
      [0, 0, 0] ⟨0, 4, []⟩ (by decide)⟩

/-- C4 counterexample to the original claim: a meta-Huffman stream whose final
RLE escape overshoots the expected length 2, emitting 3 lengths — yet
`decode_prefix_table_deflate` succeeds instead of returning `InvalidData`. -/
theorem C4_counterexample :
    (CanonicalPrefixDecoder.decodePrefixTableDeflate
        (BitStreamReader.new [128, 32, 1]) [] 2).map
      (Except.map (fun p => p.1)) = some (.ok [0, 0, 0]) ∧
    2 < [0, 0, 0].length := by
  exact ⟨by decide, by decide⟩

/-- C9: whenever `inflate` succeeds the returned vector has length exactly
`decode_size`; the final write position is within bounds and every byte at or
beyond it is still zero (the decoder stops at `is_eof` and never writes past
the position it reached). -/
theorem C9_inflate_ok_length_and_zero_tail (input : List Nat) (decodeSize : Nat)
    (outBytes : List Nat) (pos : Nat)
    (h : inflateWithPos input decodeSize = some (.ok (outBytes, pos))) :
    inflate input decodeSize = some (.ok outBytes) ∧
    outBytes.length = decodeSize ∧ pos ≤ decodeSize ∧
    ∀ i, pos ≤ i → outBytes.getD i 0 = 0 := by
  unfold inflateWithPos at h
  split at h
  · cases h
  · cases h
  · rename_i out heq
    cases h
    have hp := inflateInPlace_preserve heq (mkNew_replicate_tailZeros decodeSize)
    have hlen : out.buffer.length = decodeSize := by
      rw [hp.1]; simp [LzOutputBuffer.mkNew]
    refine ⟨?_, hlen, by have := hp.2.1; omega, fun i hi => hp.2.2 i hi⟩
    unfold inflate
    rw [heq]

theorem C9_inflate_ok_length_and_zero_tail_witness :
    inflateWithPos [1, 1, 0, 254, 255, 65] 3 = some (.ok ([65, 0, 0], 1)) ∧
    (inflate [1, 1, 0, 254, 255, 65] 3 = some (.ok [65, 0, 0]) ∧
      ([65, 0, 0] : List Nat).length = 3 ∧ 1 ≤ 3 ∧
      ∀ i, 1 ≤ i → ([65, 0, 0] : List Nat).getD i 0 = 0) :=
  ⟨by decide,
    C9_inflate_ok_length_and_zero_tail [1, 1, 0, 254, 255, 65] 3 [65, 0, 0] 1
      (by decide)⟩

/-- C10: the meta-Huffman decoder accepts RLE escape 16 (repeat previous) as
the very first symbol: `prev` starts at 0, so it emits `3 + e` zero lengths
for the 2-bit extra field `e` instead of erroring.  In the streams below the
4-bit HCLEN header selects codes `[16, 17, 18, 0]`, code 16 gets length 1,
and the first body symbol is code 16 followed by extra bits `e`. -/
theorem C10_escape16_accepted_first (e : Nat) (he : e < 4) :
    (CanonicalPrefixDecoder.decodePrefixTableDeflate
        (BitStreamReader.new [16, 32, 1 + 2 * e]) [] 3).map
      (Except.map (fun p => p.1)) = some (.ok (List.replicate (3 + e) 0)) := by
  interval_cases e <;> decide

theorem C10_escape16_accepted_first_witness :
    (1 : Nat) < 4 ∧
    (CanonicalPrefixDecoder.decodePrefixTableDeflate
        (BitStreamReader.new [16, 32, 1 + 2 * 1]) [] 3).map
      (Except.map (fun p => p.1)) = some (.ok (List.replicate (3 + 1) 0)) :=
  ⟨by decide, C10_escape16_accepted_first 1 (by decide)⟩

end Compress
namespace Compress
namespace BitStreamWriter

/-- `w₂`'s buffer extends `w₁`'s (writer operations only append bytes). -/
def Extends (w₁ w₂ : BitStreamWriter) : Prop := ∃ t, w₂.buf = w₁.buf ++ t

/-- A flushed writer has an empty partial accumulator. -/
def Aligned0 (w : BitStreamWriter) : Prop := w.bitPos = 0 → w.acc = 0

/-- The reachability relation the writer operations preserve. -/
def Step (w₁ w₂ : BitStreamWriter) : Prop :=
  Extends w₁ w₂ ∧ (Aligned0 w₁ → Aligned0 w₂)

theorem Step.rfl {w : BitStreamWriter} : Step w w :=
  ⟨⟨[], by simp⟩, fun h => h⟩

theorem Step.trans {w₁ w₂ w₃ : BitStreamWriter} (h₁ : Step w₁ w₂) (h₂ : Step w₂ w₃) :
    Step w₁ w₃ := by
  obtain ⟨⟨t₁, he₁⟩, ha₁⟩ := h₁
  obtain ⟨⟨t₂, he₂⟩, ha₂⟩ := h₂
  exact ⟨⟨t₁ ++ t₂, by rw [he₂, he₁, List.append_assoc]⟩, fun h => ha₂ (ha₁ h)⟩

theorem pushWhole_extends :
    ∀ fuel remain acc32 buf, ∃ t, (pushWhole fuel remain acc32 buf).1 = buf ++ t := by
  intro fuel
  induction fuel with
  | zero => intro remain acc32 buf; exact ⟨[], by simp [pushWhole]⟩
  | succ n ih =>
    intro remain acc32 buf
    unfold pushWhole
    split
    · obtain ⟨t, ht⟩ := ih (remain - 8) (acc32 >>> 8) (buf ++ [acc32 % 256])
      exact ⟨[acc32 % 256] ++ t, by rw [ht, List.append_assoc]⟩
    · exact ⟨[], by simp⟩

theorem pushWhole_acc_lt :
    ∀ fuel remain acc32 buf, acc32 < 2 ^ remain →
      (pushWhole fuel remain acc32 buf).2.1 < 2 ^ (pushWhole fuel remain acc32 buf).2.2 := by
  intro fuel
  induction fuel with
  | zero => intro remain acc32 buf h; simpa [pushWhole] using h
  | succ n ih =>
    intro remain acc32 buf h
    unfold pushWhole
    split
    · rename_i h8
      apply ih
      rw [Nat.shiftRight_eq_div_pow]
      have : acc32 < 2 ^ (remain - 8) * 2 ^ 8 := by
        rw [← Nat.pow_add]
        have : remain - 8 + 8 = remain := by omega
        rw [this]
        exact h
      omega
    · simpa using h

theorem and_mask_lt (x s : Nat) : x &&& mask s < 2 ^ s := by
  have : mask s = 2 ^ s - 1 := by
    simp [mask, Nat.shiftLeft_eq]
  rw [this, Nat.and_pow_two_sub_one_eq_mod]
  exact Nat.mod_lt _ (Nat.pos_pow_of_pos s (by norm_num))

theorem push_step (w : BitStreamWriter) (v : VarBit) : Step w (w.push v) := by
  unfold push
  simp only []
  split
  · rename_i h8
    split
    · rename_i hrem
      constructor
      · obtain ⟨t, ht⟩ := pushWhole_extends 3 (v.size - (8 - w.bitPos))
          ((v.value &&& mask v.size) >>> (8 - w.bitPos))
          (w.buf ++ [(w.acc ||| (v.value % 256 &&& mask (min v.size (8 - w.bitPos)) % 256) <<< w.bitPos % 256) % 256])
        exact ⟨_, by rw [ht, List.append_assoc]⟩
      · intro _
        have hlt : ((v.value &&& mask v.size) >>> (8 - w.bitPos)) <
            2 ^ (v.size - (8 - w.bitPos)) := by
          rw [Nat.shiftRight_eq_div_pow]
          have h1 : v.value &&& mask v.size < 2 ^ v.size := and_mask_lt _ _
          have h2 : (2 : Nat) ^ v.size ≤ 2 ^ (8 - w.bitPos) * 2 ^ (v.size - (8 - w.bitPos)) := by
            rw [← Nat.pow_add]
            exact Nat.pow_le_pow_right (by norm_num) (by omega)
          exact Nat.div_lt_of_lt_mul (Nat.lt_of_lt_of_le h1 h2)
        have hacc := pushWhole_acc_lt 3 (v.size - (8 - w.bitPos))
          ((v.value &&& mask v.size) >>> (8 - w.bitPos))
          (w.buf ++ [(w.acc ||| (v.value % 256 &&& mask (min v.size (8 - w.bitPos)) % 256) <<< w.bitPos % 256) % 256]) hlt
        show (pushWhole 3 (v.size - (8 - w.bitPos))
            ((v.value &&& mask v.size) >>> (8 - w.bitPos))
            (w.buf ++ [(w.acc ||| (v.value % 256 &&& mask (min v.size (8 - w.bitPos)) % 256) <<< w.bitPos % 256) % 256])).2.2 = 0 →
          (pushWhole 3 (v.size - (8 - w.bitPos))
            ((v.value &&& mask v.size) >>> (8 - w.bitPos))
            (w.buf ++ [(w.acc ||| (v.value % 256 &&& mask (min v.size (8 - w.bitPos)) % 256) <<< w.bitPos % 256) % 256])).2.1 % 256 = 0
        intro hb0
        rw [hb0] at hacc
        simp at hacc
        simp [hacc]
    · exact ⟨⟨_, rfl⟩, fun _ _ => rfl⟩
  · constructor
    · exact ⟨[], by simp⟩
    · intro ha hb0
      simp only [] at hb0
      have hp : w.bitPos = 0 ∧ v.size = 0 := by omega
      have ha0 := ha hp.1
      simp [hp.1, hp.2, ha0, mask]

theorem pushSlice_step (w : BitStreamWriter) (vs : List VarBit) :
    Step w (w.pushSlice vs) := by
  unfold pushSlice
  induction vs generalizing w with
  | nil => exact Step.rfl
  | cons v rest ih => exact Step.trans (push_step w v) (ih (w.push v))

end BitStreamWriter
end Compress
namespace Compress
namespace BitStreamWriter

theorem pushBool_step (w : BitStreamWriter) (b : Bool) : Step w (w.pushBool b) :=
  push_step w (VarBit.withBool b)

theorem pushByte_step (w : BitStreamWriter) (b : Nat) : Step w (w.pushByte b) :=
  push_step w (VarBit.withByte b)

theorem pushNibble_step (w : BitStreamWriter) (b : Nat) : Step w (w.pushNibble b) :=
  push_step w (VarBit.withNibble b)

theorem foldl_step {α : Type} {f : BitStreamWriter → α → BitStreamWriter}
    (hf : ∀ w a, Step w (f w a)) : ∀ (l : List α) (w : BitStreamWriter), Step w (l.foldl f w) := by
  intro l
  induction l with
  | nil => intro w; exact Step.rfl
  | cons a rest ih => intro w; exact Step.trans (hf w a) (ih (f w a))

theorem skipToBoundary_step (w : BitStreamWriter) : Step w w.skipToBoundary := by
  unfold skipToBoundary
  split
  · exact ⟨⟨_, rfl⟩, fun _ _ => rfl⟩
  · exact Step.rfl

theorem skipToBoundary_aligned (w : BitStreamWriter) (ha : Aligned0 w) :
    w.skipToBoundary.bitPos = 0 ∧ w.skipToBoundary.acc = 0 := by
  unfold skipToBoundary
  split
  · exact ⟨rfl, rfl⟩
  · rename_i h
    have h0 : w.bitPos = 0 := by omega
    exact ⟨h0, ha h0⟩

theorem intoBytes_of_aligned (w : BitStreamWriter) (h0 : w.bitPos = 0) :
    w.intoBytes = w.buf := by
  unfold intoBytes skipToBoundary
  rw [if_neg (by omega)]

theorem pushByte_aligned_eq (w : BitStreamWriter) (b : Nat) (h0 : w.bitPos = 0)
    (ha : w.acc = 0) (hb : b < 256) : w.pushByte b = ⟨w.buf ++ [b], 0, 0⟩ := by
  unfold pushByte push VarBit.withByte
  simp only [h0, ha]
  rw [if_pos (by omega), if_neg (by omega)]
  have hm8 : mask 8 % 256 = 255 := by decide
  have hm : mask (min 8 (8 - 0)) % 256 = 255 := by decide
  have hb8 : b % 256 = b := Nat.mod_eq_of_lt hb
  have hand : b &&& 255 = b := by
    have := Nat.and_pow_two_sub_one_eq_mod b 8
    simpa [hb8] using this
  simp [hm, hm8, hb8, hand, Nat.mod_eq_of_lt hb]

end BitStreamWriter

open BitStreamWriter in
theorem blockEncode_step (block : List Nat) (isFinal : Bool) (w : BitStreamWriter)
    (useStatic : Bool) : Step w (blockEncode block isFinal w useStatic) := by
  unfold blockEncode
  simp only []
  refine Step.trans ?_ (push_step _ _)
  refine Step.trans ?_ (foldl_step ?_ block _)
  · split
    · exact Step.trans (pushBool_step w isFinal) (push_step _ _)
    · refine Step.trans ?_ (pushSlice_step _ _)
      refine Step.trans ?_ (pushSlice_step _ _)
      refine Step.trans ?_ (pushNibble_step _ _)
      refine Step.trans ?_ (push_step _ _)
      refine Step.trans ?_ (push_step _ _)
      refine Step.trans ?_ (push_step _ _)
      exact pushBool_step w isFinal
  · intro w x
    split
    · rcases lzirLengthExtra x with _ | ⟨sz, v⟩ <;> rcases lzirDistanceExtra x with _ | ⟨sz2, v2⟩
      · refine Step.trans ?_ (push_step _ _)
        exact push_step _ _
      · refine Step.trans ?_ (push_step _ _)
        refine Step.trans ?_ (push_step _ _)
        exact push_step _ _
      · refine Step.trans ?_ (push_step _ _)
        refine Step.trans ?_ (push_step _ _)
        exact push_step _ _
      · refine Step.trans ?_ (push_step _ _)
        refine Step.trans ?_ (push_step _ _)
        refine Step.trans ?_ (push_step _ _)
        exact push_step _ _
    · exact push_step _ _

end Compress
namespace Compress

open BitStreamWriter in
theorem deflateBlockStep_step (level : CompressionLevel) (estSmall : List Nat → Bool)
    (nBlocks : Nat) : ∀ (w : BitStreamWriter) (p : Nat × List Nat),
    Step w (deflateBlockStep level estSmall nBlocks w p) := by
  intro w p
  unfold deflateBlockStep
  simp only []
  split
  · exact blockEncode_step _ _ _ _
  · exact blockEncode_step _ _ _ _

theorem windowSizePreferred_cases (n : Nat) :
    windowSizePreferred n = 256 ∨ windowSizePreferred n = 512 ∨
    windowSizePreferred n = 1024 ∨ windowSizePreferred n = 2048 ∨
    windowSizePreferred n = 4096 ∨ windowSizePreferred n = 8192 ∨
    windowSizePreferred n = 16384 ∨ windowSizePreferred n = 32768 := by
  unfold windowSizePreferred
  split_ifs <;> simp

theorem zlibHeader_spec (level : CompressionLevel) (window : Nat)
    (hw : window = 256 ∨ window = 512 ∨ window = 1024 ∨ window = 2048 ∨
      window = 4096 ∨ window = 8192 ∨ window = 16384 ∨ window = 32768) :
    zlibCmf window < 256 ∧ zlibFlg level window < 256 ∧
    zlibCmf window &&& 0x0f = 8 ∧
    zlibCmf window >>> 4 = trailingZeros window - 8 ∧
    zlibFlg level window &&& 0x20 = 0 ∧
    zlibFlg level window >>> 6 = level.zlibFlevel ∧
    (zlibCmf window * 256 + zlibFlg level window) % 31 = 0 := by
  rcases hw with rfl | rfl | rfl | rfl | rfl | rfl | rfl | rfl <;> cases level <;> decide

end Compress
namespace Compress

set_option maxHeartbeats 2000000 in
open BitStreamWriter in
/-- C5: when `deflate` with zlib framing succeeds, the output is exactly the
`cmf` byte (low nibble 8, high nibble `log2(window) - 8`), the `flg` byte
(FDICT clear, FLEVEL from the level mapping, and `cmf * 256 + flg` divisible
by 31 — also when `fcheck` lands on 31), the byte-aligned DEFLATE payload,
and the 4-byte big-endian Adler-32 of the input. -/
theorem C5_deflate_zlib_header_trailer (input : List Nat) (level : CompressionLevel)
    (estSmall : List Nat → Bool) (out : List Nat)
    (h : deflate input level true estSmall = .ok out) :
    ∃ payload,
      out = zlibCmf (windowSizePreferred input.length) ::
        zlibFlg level (windowSizePreferred input.length) :: payload ++
          [adler32 input >>> 24 % 256, adler32 input >>> 16 % 256,
           adler32 input >>> 8 % 256, adler32 input % 256] ∧
      zlibCmf (windowSizePreferred input.length) &&& 0x0f = 8 ∧
      zlibCmf (windowSizePreferred input.length) >>> 4 =
        trailingZeros (windowSizePreferred input.length) - 8 ∧
      zlibFlg level (windowSizePreferred input.length) &&& 0x20 = 0 ∧
      zlibFlg level (windowSizePreferred input.length) >>> 6 = level.zlibFlevel ∧
      (zlibCmf (windowSizePreferred input.length) * 256 +
        zlibFlg level (windowSizePreferred input.length)) % 31 = 0 := by
  have hspec := zlibHeader_spec level _ (windowSizePreferred_cases input.length)
  unfold deflate at h
  simp only [] at h
  rcases hE : encodeLcp input (windowSizePreferred input.length)
      (min (windowSizePreferred input.length) 258) 1
      (if level.isFastMethod then 1 else 16) (16 * 1024 * 1024) with e | toks
  · rw [hE] at h
    simp only [] at h
    cases h
  · rw [hE] at h
    simp only [] at h
    simp only [if_true] at h
    cases h
    have whdr1 : BitStreamWriter.new.pushByte (zlibCmf (windowSizePreferred input.length)) =
        ⟨[zlibCmf (windowSizePreferred input.length)], 0, 0⟩ :=
      pushByte_aligned_eq _ _ rfl rfl hspec.1
    have whdr2 : (⟨[zlibCmf (windowSizePreferred input.length)], 0, 0⟩ :
        BitStreamWriter).pushByte (zlibFlg level (windowSizePreferred input.length)) =
        ⟨[zlibCmf (windowSizePreferred input.length),
          zlibFlg level (windowSizePreferred input.length)], 0, 0⟩ := by
      have := pushByte_aligned_eq
        ⟨[zlibCmf (windowSizePreferred input.length)], 0, 0⟩
        (zlibFlg level (windowSizePreferred input.length)) rfl rfl hspec.2.1
      simpa using this
    rw [whdr1, whdr2]
    obtain ⟨⟨t, ht⟩, halg⟩ := foldl_step
      (deflateBlockStep_step level estSmall
        (chunksOf (16 * 1024) ((List.map lzirFromLzss toks).length + 1)
          (List.map lzirFromLzss toks)).length)
      ((chunksOf (16 * 1024) ((List.map lzirFromLzss toks).length + 1)
        (List.map lzirFromLzss toks)).enum)
      ⟨[zlibCmf (windowSizePreferred input.length),
        zlibFlg level (windowSizePreferred input.length)], 0, 0⟩
    have halg2 := halg (fun _ => rfl)
    obtain ⟨hb0, ha0⟩ := skipToBoundary_aligned _ halg2
    obtain ⟨t2, ht2⟩ := (skipToBoundary_step
      (((chunksOf (16 * 1024) ((List.map lzirFromLzss toks).length + 1)
          (List.map lzirFromLzss toks)).enum).foldl
        (deflateBlockStep level estSmall
          (chunksOf (16 * 1024) ((List.map lzirFromLzss toks).length + 1)
            (List.map lzirFromLzss toks)).length)
        ⟨[zlibCmf (windowSizePreferred input.length),
          zlibFlg level (windowSizePreferred input.length)], 0, 0⟩)).1
    rw [pushByte_aligned_eq _ _ hb0 ha0 (Nat.mod_lt _ (by norm_num))]
    rw [pushByte_aligned_eq _ _ rfl rfl (Nat.mod_lt _ (by norm_num))]
    rw [pushByte_aligned_eq _ _ rfl rfl (Nat.mod_lt _ (by norm_num))]
    rw [pushByte_aligned_eq _ _ rfl rfl (Nat.mod_lt _ (by norm_num))]
    rw [intoBytes_of_aligned _ rfl]
    refine ⟨t ++ t2, ?_, hspec.2.2.1, hspec.2.2.2.1, hspec.2.2.2.2.1,
      hspec.2.2.2.2.2.1, hspec.2.2.2.2.2.2⟩
    rw [ht2, ht]
    simp

end Compress
namespace Compress

theorem C5_deflate_zlib_header_trailer_witness :
    deflate [65] CompressionLevel.Fastest true (fun _ => false) =
      .ok [8, 29, 5, 193, 129, 0, 0, 0, 0, 0, 144, 54, 255, 83, 16, 0, 66, 0, 66] ∧
    (∃ payload,
      [8, 29, 5, 193, 129, 0, 0, 0, 0, 0, 144, 54, 255, 83, 16, 0, 66, 0, 66] =
        zlibCmf (windowSizePreferred (1 : Nat)) ::
          zlibFlg CompressionLevel.Fastest (windowSizePreferred (1 : Nat)) :: payload ++
            [adler32 [65] >>> 24 % 256, adler32 [65] >>> 16 % 256,
             adler32 [65] >>> 8 % 256, adler32 [65] % 256] ∧
      zlibCmf (windowSizePreferred (1 : Nat)) &&& 0x0f = 8 ∧
      zlibCmf (windowSizePreferred (1 : Nat)) >>> 4 =
        trailingZeros (windowSizePreferred (1 : Nat)) - 8 ∧
      zlibFlg CompressionLevel.Fastest (windowSizePreferred (1 : Nat)) &&& 0x20 = 0 ∧
      zlibFlg CompressionLevel.Fastest (windowSizePreferred (1 : Nat)) >>> 6 =
        CompressionLevel.Fastest.zlibFlevel ∧
      (zlibCmf (windowSizePreferred (1 : Nat)) * 256 +
        zlibFlg CompressionLevel.Fastest (windowSizePreferred (1 : Nat))) % 31 = 0) :=
  ⟨by decide,
    C5_deflate_zlib_header_trailer [65] CompressionLevel.Fastest (fun _ => false)
      [8, 29, 5, 193, 129, 0, 0, 0, 0, 0, 144, 54, 255, 83, 16, 0, 66, 0, 66] (by decide)⟩

end Compress
namespace Compress
namespace BitStreamReader

theorem bitsToNat_lt (l : List Bool) : bitsToNat l < 2 ^ l.length := by
  induction l with
  | nil => simp [bitsToNat]
  | cons b t ih =>
    simp only [bitsToNat, List.length_cons, Nat.pow_succ]
    cases b <;> simp <;> omega

theorem readBool_spec {r : BitStreamReader} (hinv : Inv r) :
    (readBool r = none → toBits r = []) ∧
    (∀ b r₁, readBool r = some (b, r₁) →
      ∃ rest, toBits r = b :: rest ∧ toBits r₁ = rest ∧ Inv r₁) := by
  obtain ⟨htb, hinv1, hval, hleft⟩ := peekBits_spec hinv (k := 1) (by norm_num) (by norm_num)
  constructor
  · intro hn
    unfold readBool at hn
    rcases hpk : peekBits 1 r with ⟨ov, r₁⟩
    rw [hpk] at hn
    rcases ov with _ | v
    · have h1 : (peekBits 1 r).1 = none := by rw [hpk]
      rw [hval] at h1
      by_cases hc : 1 ≤ (toBits r).length
      · rw [if_pos hc] at h1; cases h1
      · cases htb' : toBits r with
        | nil => rfl
        | cons a t => rw [htb'] at hc; simp at hc
    · cases hn
  · intro b r₁ hrd
    unfold readBool at hrd
    rcases hpk : peekBits 1 r with ⟨ov, r₂⟩
    rw [hpk] at hrd
    rcases ov with _ | v
    · cases hrd
    · have h1 : (peekBits 1 r).1 = some v := by rw [hpk]
      have h2 : (peekBits 1 r).2 = r₂ := by rw [hpk]
      have hlen : 1 ≤ (toBits r).length := by
        rw [hval] at h1
        by_cases hc : 1 ≤ (toBits r).length
        · exact hc
        · rw [if_neg hc] at h1; cases h1
      have hv : v = bitsToNat ((toBits r).take 1) := by
        rw [hval, if_pos hlen] at h1
        cases h1; rfl
      cases hrd
      have hl1 : 1 ≤ r₂.left := by have := hleft v h1; rw [h2] at this; exact this
      have hinv2 : Inv r₂ := by rw [← h2]; exact hinv1
      have htb2 : toBits r₂ = toBits r := by rw [← h2]; exact htb
      obtain ⟨hdrop, hinv3⟩ := advanceFast_toBits hinv2 hl1
      cases htr : toBits r with
      | nil => rw [htr] at hlen; simp at hlen
      | cons a t =>
        refine ⟨t, ?_, ?_, hinv3⟩
        · have : v = cond a 1 0 := by
            rw [hv, htr]
            simp [bitsToNat]
          rw [this]
          cases a <;> simp
        · rw [hdrop, htb2, htr]
          rfl

end BitStreamReader

namespace CanonicalPrefixDecoder

theorem decodeSlowLoop_eval (tree : Array Nat) :
    ∀ (bits : List Bool) (fuel index : Nat) (r : BitStreamReader), BitStreamReader.Inv r →
      BitStreamReader.toBits r = bits → bits.length < fuel →
      (∀ e, slowSpec tree index bits = .error e →
        decodeSlowLoop fuel tree index r = some (.error e)) ∧
      (∀ v j, slowSpec tree index bits = .ok (v, j) →
        ∃ r₁, decodeSlowLoop fuel tree index r = some (.ok (v, r₁)) ∧
          BitStreamReader.toBits r₁ = bits.drop j ∧ BitStreamReader.Inv r₁) := by
  intro bits
  induction bits with
  | nil =>
    intro fuel index r hinv htb hfl
    rcases fuel with _ | fuel
    · omega
    have hrb : BitStreamReader.readBool r = none := by
      rcases hb : BitStreamReader.readBool r with _ | ⟨b, r₁⟩
      · rfl
      · obtain ⟨rest, hcons, _, _⟩ := (BitStreamReader.readBool_spec hinv).2 b r₁ hb
        rw [htb] at hcons
        cases hcons
    constructor
    · intro e he
      unfold slowSpec at he
      cases he
      unfold decodeSlowLoop
      rw [hrb]
    · intro v j hj
      unfold slowSpec at hj
      cases hj
  | cons b rest ih =>
    intro fuel index r hinv htb hfl
    rcases fuel with _ | fuel
    · simp at hfl
    rcases hb : BitStreamReader.readBool r with _ | ⟨b', r₁⟩
    · have := (BitStreamReader.readBool_spec hinv).1 hb
      rw [htb] at this
      cases this
    obtain ⟨rest', hcons, htb1, hinv1⟩ := (BitStreamReader.readBool_spec hinv).2 b' r₁ hb
    rw [htb] at hcons
    cases hcons
    have hlen1 : rest.length < fuel := by simp at hfl; omega
    constructor
    · intro e he
      unfold decodeSlowLoop
      rw [hb]
      simp only []
      unfold slowSpec at he
      simp only [] at he
      by_cases hflag :
          (if b = true then tree.getD index 0 >>> 16 else tree.getD index 0) &&& 0x8000 = 0
      · rw [if_pos hflag] at he ⊢
        rcases hs : slowSpec tree
            ((if b = true then tree.getD index 0 >>> 16 else tree.getD index 0) % 65536) rest
          with e' | ⟨v', j'⟩
        · rw [hs] at he
          cases he
          exact (ih fuel _ r₁ hinv1 htb1 hlen1).1 _ hs
        · rw [hs] at he
          cases he
      · rw [if_neg hflag] at he
        cases he
    · intro v j hj
      unfold decodeSlowLoop
      rw [hb]
      simp only []
      unfold slowSpec at hj
      simp only [] at hj
      by_cases hflag :
          (if b = true then tree.getD index 0 >>> 16 else tree.getD index 0) &&& 0x8000 = 0
      · rw [if_pos hflag] at hj ⊢
        rcases hs : slowSpec tree
            ((if b = true then tree.getD index 0 >>> 16 else tree.getD index 0) % 65536) rest
          with e' | ⟨v', j'⟩
        · rw [hs] at hj
          cases hj
        · rw [hs] at hj
          cases hj
          obtain ⟨r₂, hloop, hdrop, hinv2⟩ := (ih fuel _ r₁ hinv1 htb1 hlen1).2 _ _ hs
          exact ⟨r₂, hloop, by simpa using hdrop, hinv2⟩
      · rw [if_neg hflag] at hj
        cases hj
        rw [if_neg hflag]
        exact ⟨r₁, rfl, by simpa using htb1, hinv1⟩

theorem decodeSlow_eval (d : CanonicalPrefixDecoder) (r : BitStreamReader)
    (hinv : BitStreamReader.Inv r) :
    (∀ e, slowSpec d.decodeTree 0 (BitStreamReader.toBits r) = .error e →
      decodeSlow d r = some (.error e)) ∧
    (∀ v j, slowSpec d.decodeTree 0 (BitStreamReader.toBits r) = .ok (v, j) →
      ∃ r₁, decodeSlow d r = some (.ok (v, r₁)) ∧
        BitStreamReader.toBits r₁ = (BitStreamReader.toBits r).drop j ∧
        BitStreamReader.Inv r₁) := by
  have hlen : (BitStreamReader.toBits r).length < bitsRem r + 1 := by
    rw [BitStreamReader.toBits_length]
    unfold bitsRem
    omega
  exact decodeSlowLoop_eval d.decodeTree (BitStreamReader.toBits r) (bitsRem r + 1) 0 r
    hinv rfl hlen

end CanonicalPrefixDecoder
end Compress

namespace Compress

theorem reverseBitsAux_lt : ∀ (n x acc : Nat), reverseBitsAux n x acc < (acc + 1) * 2 ^ n := by
  intro n
  induction n with
  | zero => intro x acc; simp [reverseBitsAux]
  | succ n ih =>
    intro x acc
    have h1 := ih (x >>> 1) (acc * 2 + x % 2)
    have h2 : x % 2 < 2 := Nat.mod_lt x (by decide)
    have hle : acc * 2 + x % 2 + 1 ≤ (acc + 1) * 2 := by omega
    calc reverseBitsAux (n + 1) x acc
        = reverseBitsAux n (x >>> 1) (acc * 2 + x % 2) := rfl
      _ < (acc * 2 + x % 2 + 1) * 2 ^ n := h1
      _ ≤ ((acc + 1) * 2) * 2 ^ n := Nat.mul_le_mul_right (2 ^ n) hle
      _ = (acc + 1) * 2 ^ (n + 1) := by ring

theorem reversed_value_lt (v : VarBit) : (VarBit.reversed v).value < 2 ^ v.size := by
  simpa [VarBit.reversed] using reverseBitsAux_lt v.size v.value 0

theorem getElem_opt_setD {α : Type} (a : Array α) (i : Nat) (v : α) (j : Nat) :
    (a.setD i v)[j]? = if i = j ∧ i < a.size then some v else a[j]? := by
  unfold Array.setD
  split
  next h =>
    rw [Array.get?_set]
    by_cases hij : i = j
    · rw [if_pos hij, if_pos ⟨hij, h⟩]
    · rw [if_neg hij, if_neg (fun hc => hij hc.1)]
  next h =>
    rw [if_neg (fun hc => h hc.2)]

theorem getD_setD_same {α : Type} (a : Array α) (i : Nat) (v x : α) (h : i < a.size) :
    (a.setD i v).getD i x = v := by
  rw [Array.getD_eq_get?, getElem_opt_setD, if_pos ⟨rfl, h⟩]
  rfl

theorem getD_setD_other {α : Type} (a : Array α) (i j : Nat) (v x : α) (hij : i ≠ j) :
    (a.setD i v).getD j x = a.getD j x := by
  rw [Array.getD_eq_get?, getElem_opt_setD, if_neg (fun hc => hij hc.1), Array.getD_eq_get?]

theorem set_eq_setD {α : Type} (a : Array α) (i : Nat) (v : α) : a.set! i v = a.setD i v := rfl

open CanonicalPrefixDecoder in
theorem tableFill_size {α : Type} (entry : α) (delta : Nat) :
    ∀ fuel path (tbl : Array α), (tableFill entry delta fuel path tbl).size = tbl.size := by
  intro fuel
  induction fuel with
  | zero => intro path tbl; rfl
  | succ fuel ih =>
    intro path tbl
    unfold tableFill
    by_cases h : path < tbl.size
    · rw [if_pos h, ih, set_eq_setD, Array.size_setD]
    · rw [if_neg h]

open CanonicalPrefixDecoder in
theorem tableFill_getD_notMem {α : Type} (entry : α) (delta : Nat) (hδ : 0 < delta) :
    ∀ fuel path (tbl : Array α) (k : Nat) (x : α),
      (¬ ∃ m, k = path + m * delta) →
      (tableFill entry delta fuel path tbl).getD k x = tbl.getD k x := by
  intro fuel
  induction fuel with
  | zero => intro path tbl k x hm; rfl
  | succ fuel ih =>
    intro path tbl k x hm
    unfold tableFill
    by_cases h : path < tbl.size
    · rw [if_pos h]
      have hm2 : ¬ ∃ m, k = path + delta + m * delta := by
        rintro ⟨m, rfl⟩
        exact hm ⟨m + 1, by ring⟩
      rw [ih (path + delta) _ k x hm2, set_eq_setD,
        getD_setD_other tbl path k entry x (fun hpk => hm ⟨0, by omega⟩)]
    · rw [if_neg h]

open CanonicalPrefixDecoder in
theorem tableFill_getD_mem {α : Type} (entry : α) (delta : Nat) (hδ : 0 < delta) :
    ∀ fuel path (tbl : Array α) (k : Nat) (x : α),
      tbl.size ≤ fuel + path → (∃ m, k = path + m * delta) → k < tbl.size →
      (tableFill entry delta fuel path tbl).getD k x = entry := by
  intro fuel
  induction fuel with
  | zero =>
    intro path tbl k x hfuel hex hk
    obtain ⟨m, hm⟩ := hex
    have hple : path ≤ k := by rw [hm]; exact Nat.le_add_right _ _
    omega
  | succ fuel ih =>
    intro path tbl k x hfuel hex hk
    obtain ⟨m, hm⟩ := hex
    have hple : path ≤ k := by rw [hm]; exact Nat.le_add_right _ _
    have hpsz : path < tbl.size := Nat.lt_of_le_of_lt hple hk
    unfold tableFill
    rw [if_pos hpsz]
    rcases m with _ | m
    · have hkp : k = path := by omega
      subst hkp
      have hnm : ¬ ∃ m2, k = k + delta + m2 * delta := by
        rintro ⟨m2, hm2⟩
        have h2 : k + delta ≤ k := by
          conv_rhs => rw [hm2]
          exact Nat.le_add_right _ _
        omega
      rw [tableFill_getD_notMem entry delta hδ fuel (k + delta) _ k x hnm, set_eq_setD,
        getD_setD_same tbl k entry x hpsz]
    · apply ih (path + delta) (tbl.set! path entry) k x
      · rw [set_eq_setD, Array.size_setD]
        omega
      · exact ⟨m, by rw [hm]; ring⟩
      · rw [set_eq_setD, Array.size_setD]
        exact hk

open CanonicalPrefixDecoder in
theorem tableFill_entry2ok (pt : List (Nat × VarBit)) (peek : Nat) (e : LookupEntry2)
    (delta start : Nat) (hδ : 0 < delta) (tbl : Array LookupEntry2)
    (hs : tbl.size = 2 ^ peek)
    (hP : ∀ key, key < 2 ^ peek → Entry2Ok pt peek key (tbl.getD key none))
    (he : ∀ key, key < 2 ^ peek → (∃ m, key = start + m * delta) →
      Entry2Ok pt peek key e) :
    (tableFill e delta tbl.size start tbl).size = 2 ^ peek ∧
    ∀ key, key < 2 ^ peek →
      Entry2Ok pt peek key ((tableFill e delta tbl.size start tbl).getD key none) := by
  constructor
  · rw [tableFill_size, hs]
  · intro key hkey
    by_cases hex : ∃ m, key = start + m * delta
    · rw [tableFill_getD_mem e delta hδ tbl.size start tbl key none
        (Nat.le_add_right _ _) hex (by omega)]
      exact he key hkey hex
    · rw [tableFill_getD_notMem e delta hδ tbl.size start tbl key none hex]
      exact hP key hkey

theorem foldl_preserve {α β : Type} (P : β → Prop) (f : β → α → β) :
    ∀ (l : List α) (b : β), P b → (∀ x ∈ l, ∀ y, P y → P (f y x)) → P (l.foldl f b) := by
  intro l
  induction l with
  | nil => intro b hb _; exact hb
  | cons x t ih =>
    intro b hb hstep
    exact ih (f b x) (hstep x (by simp) b hb) (fun z hz y hy => hstep z (by simp [hz]) y hy)

open CanonicalPrefixDecoder in
theorem fillLookup2_ok (pt : List (Nat × VarBit)) (peek minBits : Nat)
    (hwf : ∀ sv ∈ pt, 1 ≤ (sv.2).size) :
    (fillLookup2 pt peek minBits).size = 2 ^ peek ∧
    ∀ key, key < 2 ^ peek →
      Entry2Ok pt peek key ((fillLookup2 pt peek minBits).getD key none) := by
  unfold fillLookup2
  simp only []
  refine foldl_preserve
    (fun tbl : Array LookupEntry2 => tbl.size = 2 ^ peek ∧
      ∀ key, key < 2 ^ peek → Entry2Ok pt peek key (tbl.getD key none))
    _ pt _ ⟨?_, ?_⟩ ?_
  · simp [Nat.shiftLeft_eq]
  · intro key hkey
    have hbase : (Array.mkArray ((1 : Nat) <<< peek) (none : LookupEntry2)).getD key none
        = none := by
      rw [Array.getD_eq_get?, Array.getElem?_mkArray]
      split <;> rfl
    rw [hbase]
    trivial
  · rintro sv hsv tbl ⟨hsize, hok⟩
    have h1 := hwf sv hsv
    by_cases hg1 : peek < (sv.2).size
    · rw [if_pos hg1]
      exact ⟨hsize, hok⟩
    · rw [if_neg hg1]
      have hδ1 : 0 < (1 : Nat) <<< (sv.2).size := by
        rw [Nat.shiftLeft_eq]
        positivity
      have hfill := tableFill_entry2ok pt peek
        (some (LitLen2.fromLitLen sv.1, (sv.2).size)) ((1 : Nat) <<< (sv.2).size)
        (VarBit.reversed sv.2).value hδ1 tbl hsize hok ?he1
      case he1 =>
        intro key hkey hex
        refine ⟨h1, by omega, Or.inl ⟨sv.1, sv.2, hsv, rfl, ?_, rfl⟩⟩
        obtain ⟨m, hm⟩ := hex
        rw [hm, Nat.shiftLeft_eq, one_mul, Nat.add_mul_mod_self_right]
        exact Nat.mod_eq_of_lt (reversed_value_lt sv.2)
      obtain ⟨hfs, hfok⟩ := hfill
      by_cases hg2 : 255 < sv.1 ∨ peek < (sv.2).size + minBits
      · rw [if_pos hg2]
        exact ⟨hfs, hfok⟩
      · rw [if_neg hg2]
        push_neg at hg2
        obtain ⟨hs1, hminb⟩ := hg2
        refine foldl_preserve
          (fun tbl : Array LookupEntry2 => tbl.size = 2 ^ peek ∧
            ∀ key, key < 2 ^ peek → Entry2Ok pt peek key (tbl.getD key none))
          _ _ _ ⟨hfs, hfok⟩ ?_
        rintro sw hsw tbl2 ⟨hsize2, hok2⟩
        obtain ⟨q, hqmem, hqeq⟩ := List.mem_map.mp hsw
        obtain ⟨hqpt, hqcond⟩ := List.mem_filter.mp hqmem
        have hqc := of_decide_eq_true hqcond
        obtain ⟨hq256, hqmin⟩ := hqc
        have hsw1 : sw.1 = q.1 := by rw [← hqeq]
        have hsw2 : sw.2 = VarBit.reversed q.2 := by rw [← hqeq]
        by_cases hg3 : 24 < (sv.2).size + (sw.2).size
        · rw [if_pos hg3]
          exact ⟨hsize2, hok2⟩
        · rw [if_neg hg3]
          by_cases hg4 : peek < (sv.2).size + (sw.2).size
          · rw [if_pos hg4]
            exact ⟨hsize2, hok2⟩
          · rw [if_neg hg4]
            have hδ2 : 0 < (1 : Nat) <<< ((sv.2).size + (sw.2).size) := by
              rw [Nat.shiftLeft_eq]
              positivity
            refine (tableFill_entry2ok pt peek _ _ _ hδ2 tbl2 hsize2 hok2 ?he2)
            intro key hkey hex
            have hsz2 : (sw.2).size = (q.2).size := by rw [hsw2]; rfl
            refine ⟨by omega, by omega,
              Or.inr ⟨sv.1, sv.2, q.1, q.2, hsv, hqpt, by omega, hq256, by omega, ?_, ?_⟩⟩
            · obtain ⟨m, hm⟩ := hex
              have hδeq : (1 : Nat) <<< ((sv.2).size + (sw.2).size)
                  = 2 ^ ((sv.2).size + (sw.2).size) := by
                rw [Nat.shiftLeft_eq, one_mul]
              rw [hm, hδeq, Nat.add_mul_mod_self_right]
              have hlt : (VarBit.reversed sv.2).value |||
                  ((sw.2).value <<< (sv.2).size) < 2 ^ ((sv.2).size + (sw.2).size) := by
                apply Nat.or_lt_two_pow
                · exact Nat.lt_of_lt_of_le (reversed_value_lt sv.2)
                    (Nat.pow_le_pow_right (by decide) (Nat.le_add_right _ _))
                · rw [Nat.shiftLeft_eq, Nat.pow_add, Nat.mul_comm (2 ^ (sv.2).size)]
                  apply Nat.mul_lt_mul_of_lt_of_le
                  · rw [hsw2]
                    exact reversed_value_lt q.2
                  · exact Nat.le_refl _
                  · positivity
              rw [Nat.mod_eq_of_lt hlt, hsw2]
            · rw [hsw1, Nat.mod_eq_of_lt (by omega), Nat.mod_eq_of_lt hq256]

theorem reorderLoop_wf :
    ∀ (l : List (Nat × Nat)) (acc last : Nat) (pt : List (Nat × VarBit)),
      CanonicalPrefixDecoder.reorderLoop l acc last = .ok pt →
      ∀ sv ∈ pt, 1 ≤ (sv.2).size ∧ (sv.2).size ≤ 24 := by
  intro l
  induction l with
  | nil =>
    intro acc last pt h sv hsv
    cases h
    cases hsv
  | cons kb t ih =>
    rcases kb with ⟨k, bits⟩
    intro acc last pt h sv hsv
    unfold CanonicalPrefixDecoder.reorderLoop at h
    simp only [] at h
    by_cases hguard : bits = 0 ∨ 24 < bits
    · rw [if_pos hguard] at h
      cases h
    · rw [if_neg hguard] at h
      rcases hnc : VarBit.newChecked bits (CanonicalPrefixDecoder.canonShift last bits bits acc)
        with _ | vb
      · rw [hnc] at h
        cases h
      · rw [hnc] at h
        rcases hrec : CanonicalPrefixDecoder.reorderLoop t
            (CanonicalPrefixDecoder.canonShift last bits bits acc + 1) bits with e | tl
        · rw [hrec] at h
          cases h
        · rw [hrec] at h
          cases h
          have hvb : vb.size = bits := by
            unfold VarBit.newChecked at hnc
            split_ifs at hnc
            cases hnc
            rfl
          rcases List.mem_cons.mp hsv with rfl | hmem
          · push_neg at hguard
            constructor
            · simp only [hvb]
              omega
            · simp only [hvb]
              omega
          · exact ih _ _ tl hrec sv hmem

theorem reorderPrefixTable_wf (prefixes : List (Nat × Nat)) (pt : List (Nat × VarBit))
    (h : CanonicalPrefixDecoder.reorderPrefixTable prefixes = .ok pt) :
    ∀ sv ∈ pt, 1 ≤ (sv.2).size ∧ (sv.2).size ≤ 24 := by
  unfold CanonicalPrefixDecoder.reorderPrefixTable at h
  exact reorderLoop_wf _ 0 0 pt h

open CanonicalPrefixDecoder in
theorem withLengths_true_destruct (lengths : List Nat) (d : CanonicalPrefixDecoder)
    (hd : withLengths lengths true = .ok d) :
    ∃ pt, reorderPrefixTable lengths.enum = .ok pt ∧
      d.lookupTable = #[] ∧
      d.lookupTable2 = fillLookup2 pt d.peekBits d.minBits ∧
      (∀ sv ∈ pt, 1 ≤ (sv.2).size) := by
  unfold withLengths at hd
  rcases hpt : reorderPrefixTable lengths.enum with e | pt
  · rw [hpt] at hd
    simp only [] at hd
    cases hd
  rw [hpt] at hd
  simp only [] at hd
  by_cases hlen : pt.length < 2
  · rw [if_pos hlen] at hd
    cases hd
  rw [if_neg hlen] at hd
  rcases hm1 : (pt.map (fun sv => sv.1)).max? with _ | maxSymbol <;> rw [hm1] at hd
  · simp only [] at hd
    cases hd
  rcases hm2 : (pt.map (fun sv => (sv.2).size)).max? with _ | maxBits <;> rw [hm2] at hd
  · simp only [] at hd
    cases hd
  rcases hm3 : (pt.map (fun sv => (sv.2).size)).min? with _ | minBits <;> rw [hm3] at hd
  · simp only [] at hd
    cases hd
  simp only [] at hd
  rcases htree : pt.foldlM (fun tr (sv : Nat × VarBit) => insertNode tr sv.2 sv.1) #[0]
    with e | tree <;> rw [htree] at hd
  · simp only [] at hd
    cases hd
  simp only [] at hd
  simp only [if_true] at hd
  cases hd
  exact ⟨pt, rfl, rfl, rfl, fun sv hsv => (reorderPrefixTable_wf _ _ hpt sv hsv).1⟩

end Compress

namespace Compress

/-- C6 (corrected): `decode2` on a two-literal decoder is NOT observationally
equivalent to repeated `decode` calls — `with_lengths(. , is_lzss_lit = true)`
leaves `lookup_table` empty, so `decode` answers `InvalidData` whenever its
peek succeeds.  What does hold is soundness of the two-literal lookup table:
every filled entry at a peek key records either one canonical code of the
reordered prefix table (with its exact bit length as the advance width) or the
concatenation of two literal codes (a `Double`, advancing by the sum of the
two lengths), the consumed bits being the low bits of the key. -/
theorem C6_decode2_table_sound (lengths : List Nat) (d : CanonicalPrefixDecoder)
    (hd : CanonicalPrefixDecoder.withLengths lengths true = .ok d) :
    ∃ pt, CanonicalPrefixDecoder.reorderPrefixTable lengths.enum = .ok pt ∧
      d.lookupTable = #[] ∧
      d.lookupTable2.size = 2 ^ d.peekBits ∧
      ∀ key, key < 2 ^ d.peekBits →
        CanonicalPrefixDecoder.Entry2Ok pt d.peekBits key (d.lookupTable2.getD key none) := by
  obtain ⟨pt, hpt, hlt, hlt2, hwf⟩ := withLengths_true_destruct lengths d hd
  obtain ⟨hsz, hok⟩ := fillLookup2_ok pt d.peekBits d.minBits hwf
  refine ⟨pt, hpt, hlt, ?_, ?_⟩
  · rw [hlt2]
    exact hsz
  · intro key hk
    rw [hlt2]
    exact hok key hk

/-- Witness: the claim theorem applied to the concrete decoder built from the
length table `[1, 1]`. -/
theorem C6_decode2_table_sound_witness :
    ∃ pt, CanonicalPrefixDecoder.reorderPrefixTable ([1, 1] : List Nat).enum = .ok pt ∧
      decoderW.lookupTable = #[] ∧
      decoderW.lookupTable2.size = 2 ^ decoderW.peekBits ∧
      ∀ key, key < 2 ^ decoderW.peekBits →
        CanonicalPrefixDecoder.Entry2Ok pt decoderW.peekBits key
          (decoderW.lookupTable2.getD key none) :=
  C6_decode2_table_sound [1, 1] decoderW (by rfl)

/-- Counterexample to the claimed equivalence: on the decoder built from the
length table `[1, 1]` with the two-literal option, reading the byte `0`,
`decode2` succeeds with `Double 0 0` (two one-bit codes consumed) while
`decode` fails with `InvalidData`. -/
theorem C6_counterexample :
    CanonicalPrefixDecoder.withLengths [1, 1] true = .ok decoderW ∧
    CanonicalPrefixDecoder.decode2 decoderW (BitStreamReader.new [0]) =
      some (.ok (LitLen2.Double 0 0, ⟨0, 6, []⟩)) ∧
    CanonicalPrefixDecoder.decode decoderW (BitStreamReader.new [0]) =
      some (.error .InvalidData) :=
  ⟨rfl, rfl, rfl⟩

end Compress

namespace Compress

/-- C1 (corrected): the roundtrip cannot hold for every byte sequence — on the
empty input `deflate` refuses with `InvalidInput` at every level (the LZSS
encoder rejects empty slices), so `inflate (deflate b) |b| = b` fails at
`b = []`.  A concrete non-empty roundtrip does go through, shown here for
`b = [65]` at the fastest level. -/
theorem C1_roundtrip_fails_empty (level : CompressionLevel) (estSmall : List Nat → Bool) :
    deflate [] level false estSmall = .error .InvalidInput ∧
    deflate [65] CompressionLevel.Fastest false (fun _ => false) =
      .ok [5, 193, 129, 0, 0, 0, 0, 0, 144, 54, 255, 83, 16] ∧
    inflate [5, 193, 129, 0, 0, 0, 0, 0, 144, 54, 255, 83, 16] 1 = some (.ok [65]) := by
  refine ⟨?_, rfl, rfl⟩
  cases level <;> rfl

/-- Counterexample input for the roundtrip claim: the empty byte sequence is
rejected by the compressor at every level, so the claimed
`inflate (deflate b) = b` has no chance at `b = []`. -/
theorem C1_counterexample :
    deflate [] CompressionLevel.Fastest false (fun _ => false) = .error .InvalidInput ∧
    deflate [] CompressionLevel.Fast false (fun _ => false) = .error .InvalidInput ∧
    deflate [] CompressionLevel.Default false (fun _ => false) = .error .InvalidInput ∧
    deflate [] CompressionLevel.Best false (fun _ => false) = .error .InvalidInput :=
  ⟨rfl, rfl, rfl, rfl⟩

end Compress
